import Mathlib

/-! function_traits: orbit search, folds, the safe-addition check and callable classification.

A shallow embedding of `src/test.cc` (the "Elements of Programming" style algorithms
`collison_point`, `terminating_orbit`, `circular_orbit`, `reduce_nonempty`, `reduce`,
`definition_space_addition_runtime`) and of `src/function_traits.hh` (the template
`function_traits` and its specialisations), followed by theorems about them.

Conventions:
* a pure transformation `f` and a pure predicate `p` are Lean functions `D → D`, `D → Bool`;
  `==` / `!=` on the domain type is decidable equality;
* a `while` loop that may run forever carries a `fuel : Nat`, the number of times its body may
  run; `none` means that the fuel ran out;
* an iterator range `[first, last)` is a `List`; `*first` is the head, `first++` the tail and
  `first == last` emptiness;
* machine integers are `Int` with an explicit two's-complement `wrap`, `size_t` is `Nat` modulo
  `2 ^ 64`.
-/

namespace Eop

/-! ## Definitions: orbit search (`src/test.cc`, lines 43-85) -/

section Orbit

variable {D : Type} [DecidableEq D]

/-- The `while(fast != slow)` loop of `collison_point` (test.cc:54-63) on the state
`(slow, fast)`. `fuel` bounds the number of executions of the loop body. -/
def collison_point_loop (f : D → D) (p : D → Bool) : Nat → D → D → Option D
  | 0, slow, fast => if fast ≠ slow then none else some fast
  | fuel + 1, slow, fast =>
    if fast ≠ slow then
      -- slow = f(slow);
      if !p fast then some fast
      else if !p (f fast) then some (f fast)
      else collison_point_loop f p fuel (f slow) (f (f fast))
    else some fast

/-- The function `collison_point(x, f, p)` (test.cc:43-64). -/
def collison_point (fuel : Nat) (x : D) (f : D → D) (p : D → Bool) : Option D :=
  if !p x then some x
  else collison_point_loop f p fuel x (f x)

/-- The function `terminating_orbit(x, f, p)` (test.cc:66-74): `!p(collison_point(x, f, p))`. -/
def terminating_orbit (fuel : Nat) (x : D) (f : D → D) (p : D → Bool) : Option Bool :=
  (collison_point fuel x f p).map fun y => !p y

/-- The function `circular_orbit(x, f, p)` (test.cc:76-85): with `y` the collision point,
`p(y) && x == f(y)`. -/
def circular_orbit (fuel : Nat) (x : D) (f : D → D) (p : D → Bool) : Option Bool :=
  (collison_point fuel x f p).map fun y => p y && decide (x = f y)

/-- Ghost copy of `collison_point_loop` that also records through which exit the loop was
left: `true` when the loop condition `fast != slow` failed (slow met fast), `false` when one
of the two `return fast` statements inside the body was taken. -/
def collison_point_loop_exit (f : D → D) (p : D → Bool) : Nat → D → D → Option (D × Bool)
  | 0, slow, fast => if fast ≠ slow then none else some (fast, true)
  | fuel + 1, slow, fast =>
    if fast ≠ slow then
      if !p fast then some (fast, false)
      else if !p (f fast) then some (f fast, false)
      else collison_point_loop_exit f p fuel (f slow) (f (f fast))
    else some (fast, true)

/-- Ghost copy of `collison_point` with the exit taken; the early `return x` counts as a
`return` inside the search (`false`). -/
def collison_point_exit (fuel : Nat) (x : D) (f : D → D) (p : D → Bool) : Option (D × Bool) :=
  if !p x then some (x, false)
  else collison_point_loop_exit f p fuel x (f x)

/-- Ghost copy of `collison_point_loop` that records, in order, the arguments of the calls of
`f` that the loop makes: `f(slow)` at the head of the body, then `f(fast)` after each of the
two checks of `p(fast)` that did not return. -/
def collison_point_loop_calls (f : D → D) (p : D → Bool) : Nat → D → D → List D
  | 0, _, _ => []
  | fuel + 1, slow, fast =>
    if fast ≠ slow then
      slow ::
        (if !p fast then []
        else fast ::
          (if !p (f fast) then []
          else f fast :: collison_point_loop_calls f p fuel (f slow) (f (f fast))))
    else []

/-- The arguments of the calls of `f` made by `collison_point`: none when `p(x)` is false,
otherwise `f(x)` for the initial `fast`, then those of the loop. -/
def collison_point_calls (fuel : Nat) (x : D) (f : D → D) (p : D → Bool) : List D :=
  if !p x then []
  else x :: collison_point_loop_calls f p fuel x (f x)

/-- The arguments of the calls of `f` made by `circular_orbit`: those of `collison_point`,
then `f(y)` when the left operand `p(y)` of `&&` is true. -/
def circular_orbit_calls (fuel : Nat) (x : D) (f : D → D) (p : D → Bool) : List D :=
  collison_point_calls fuel x f p ++
    (match collison_point fuel x f p with
     | some y => if p y then [y] else []
     | none => [])

end Orbit

/-! ## Definitions: the safe-addition check (`src/test.cc`, lines 87-97) -/

/-- `std::numeric_limits<T>::max()` for a signed integer type `T` of `w` bits. -/
def numeric_limits_max (w : Nat) : Int := 2 ^ (w - 1) - 1

/-- `std::numeric_limits<T>::min()` for a signed integer type `T` of `w` bits. -/
def numeric_limits_min (w : Nat) : Int := -(2 ^ (w - 1))

/-- Two's-complement reduction of an unbounded integer to the `w`-bit signed range: the value
that a `w`-bit signed operation whose exact result is `v` leaves in the register. -/
def wrap (w : Nat) (v : Int) : Int := (v + 2 ^ (w - 1)) % 2 ^ w - 2 ^ (w - 1)

/-- The function `definition_space_addition_runtime<T>(lhs, rhs)` (test.cc:87-97) for a signed
`T` of `w` bits; the two subtractions are `w`-bit operations, `&&` and `||` short-circuit (which
for pure operands is the Boolean connective). -/
def definition_space_addition_runtime (w : Nat) (lhs rhs : Int) : Bool :=
  if (decide (rhs > 0) && decide (lhs > wrap w (numeric_limits_max w - rhs)))
      || (decide (rhs < 0) && decide (lhs < wrap w (numeric_limits_min w - rhs))) then
    false
  else
    true

/-- The same check with the two subtractions carried out over the unbounded integers. -/
def definition_space_addition_exact (w : Nat) (lhs rhs : Int) : Bool :=
  if (decide (rhs > 0) && decide (lhs > numeric_limits_max w - rhs))
      || (decide (rhs < 0) && decide (lhs < numeric_limits_min w - rhs)) then
    false
  else
    true

/-- An arithmetic operation on two values of the integer type, with its operands. -/
inductive ArithOp where
  | add (a b : Int)
  | sub (a b : Int)
  deriving DecidableEq, Repr

/-- The exact (unbounded) result of an arithmetic operation. -/
def ArithOp.exact : ArithOp → Int
  | .add a b => a + b
  | .sub a b => a - b

/-- Ghost copy of `definition_space_addition_runtime` that records, in order, the arithmetic
operations that the condition at test.cc:93-94 evaluates: the right operand of `&&` is
evaluated only when the left one is true, the right operand of `||` only when the left one is
false. -/
def definition_space_addition_ops (w : Nat) (lhs rhs : Int) : List ArithOp :=
  if rhs > 0 then
    if lhs > wrap w (numeric_limits_max w - rhs) then
      [ArithOp.sub (numeric_limits_max w) rhs]
    else
      ArithOp.sub (numeric_limits_max w) rhs ::
        (if rhs < 0 then [ArithOp.sub (numeric_limits_min w) rhs] else [])
  else
    if rhs < 0 then [ArithOp.sub (numeric_limits_min w) rhs] else []

/-! ## Definitions: the values of `eop_examples` (`src/test.cc`, lines 125-129) -/

/-- The predicate object `p` of `eop_examples`: `struct defspace` with
`operator()(int x) { return definition_space_addition_runtime(x, 1); }` on 32-bit `int`. -/
def defspace (x : Int) : Bool := definition_space_addition_runtime 32 x 1

/-- The transformation of `eop_examples`: the lambda `[](int x) { return x + 1; }`, a 32-bit
addition. -/
def eop_successor (x : Int) : Int := wrap 32 (x + 1)

/-- The start value of `eop_examples`: `const int x = 0x7fffffff - 133`. -/
def eop_x : Int := 0x7fffffff - 133

/-! ## Definitions: folds (`src/test.cc`, lines 99-121) -/

section Reduce

variable {D : Type}

/-- The `while(first != last)` loop of `reduce_nonempty` (test.cc:106-109): `r` is the
accumulator, the list is the rest of the range `[first, last)`. -/
def reduce_nonempty_loop (op : D → D → D) : D → List D → D
  | r, [] => r
  | r, e :: rest => reduce_nonempty_loop op (op r e) rest

/-- The function `reduce_nonempty(first, last, op)` (test.cc:99-111). On the empty range the
code dereferences `first == last`, which has no defined result: `none`. -/
def reduce_nonempty (s : List D) (op : D → D → D) : Option D :=
  match s with
  | [] => none
  | a :: rest => some (reduce_nonempty_loop op a rest)

/-- The function `reduce(first, last, op, z)` (test.cc:113-121). -/
def reduce (s : List D) (op : D → D → D) (z : D) : Option D :=
  match s with
  | [] => some z
  | _ :: _ => reduce_nonempty s op

/-- Ghost copy of `reduce_nonempty_loop` that records, in order, the argument pairs of the
calls `op(r, *first)` that the loop makes. -/
def reduce_nonempty_loop_calls (op : D → D → D) : D → List D → List (D × D)
  | _, [] => []
  | r, e :: rest => (r, e) :: reduce_nonempty_loop_calls op (op r e) rest

/-- The calls of `op` made by `reduce_nonempty`: none before the loop, then those of the
loop. -/
def reduce_nonempty_calls (s : List D) (op : D → D → D) : List (D × D) :=
  match s with
  | [] => []
  | a :: rest => reduce_nonempty_loop_calls op a rest

/-- The calls of `op` made by `reduce`: none when it returns `z`, otherwise those of
`reduce_nonempty`. -/
def reduce_calls (s : List D) (op : D → D → D) (_z : D) : List (D × D) :=
  match s with
  | [] => []
  | _ :: _ => reduce_nonempty_calls s op

/-- The standard left fold `std::accumulate(first, last, init, op)`, in the words of the
specification ("a standard left-to-right" fold started from `init`): for each element in
sequence order, `init = op(init, element)`. -/
def std_accumulate (s : List D) (init : D) (op : D → D → D) : D :=
  match s with
  | [] => init
  | e :: rest => std_accumulate rest (op init e) op

/-- A stand-in for the sample `v` of `eop_examples` (there drawn at random): 1024 exact
rational values spread over `[0.13, 199.17]`. -/
def eop_sample : List ℚ :=
  List.map (fun i : Nat => (13 + 19 * (i : ℚ)) / 100) (List.range 1024)

end Reduce

/-! ## Definitions: callable classification (`src/function_traits.hh`, lines 6-66) -/

/-- An object type occurring as a return or parameter type: a named (fundamental, class or
otherwise opaque) type, possibly qualified. -/
inductive CppType where
  | named (name : String)
  | const (t : CppType)
  | volatile (t : CppType)
  | lref (t : CppType)
  | rref (t : CppType)
  | ptr (t : CppType)
  deriving DecidableEq, Repr

/-- The shapes of a type `F` handed to `function_traits<F>`, one per pattern that the partial
specialisations distinguish; `cls` is every other type (a closure or function-object class,
or a type without a call operator), which only the primary template matches. -/
inductive FType where
  | func (R : CppType) (Args : List CppType)
  | func_ptr (R : CppType) (Args : List CppType)
  | mem_func (C R : CppType) (Args : List CppType)
  | mem_func_const (C R : CppType) (Args : List CppType)
  | mem_obj (C R : CppType)
  | const (F : FType)
  | lref (F : FType)
  | rref (F : FType)
  | cls (name : String)

/-- The type `decltype(&F::operator())` of a class `F` with exactly one, non-template call
operator: the pointer to member function `R (C::*)(Args...)`, const-qualified or not. -/
structure CallOperator where
  C : CppType
  R : CppType
  Args : List CppType
  is_const : Bool

/-- The members of an instantiated `function_traits<F>`: `return_type`, `arity` and the member
template `arg<N>`, whose `type` is `none` where its `static_assert` fails. -/
structure Traits where
  return_type : CppType
  arity : Nat
  arg : Nat → Option CppType

/-- Subtraction of `std::size_t` values (64 bits), modulo `2 ^ 64`. -/
def size_t_sub (a b : Nat) : Nat := (a + 2 ^ 64 - b % 2 ^ 64) % 2 ^ 64

/-- Addition of `std::size_t` values (64 bits), modulo `2 ^ 64`. -/
def size_t_add (a b : Nat) : Nat := (a + b) % 2 ^ 64

/-- The specialisation `function_traits<R(Args...)>` (function_traits.hh:8-19): `arity` is
`sizeof...(Args)`, and `arg<N>::type` is `std::tuple_element<N, std::tuple<Args...>>::type`
under `static_assert(N < arity)`. -/
def function_traits_func (R : CppType) (Args : List CppType) : Traits where
  return_type := R
  arity := Args.length
  arg := fun N => if N < Args.length then Args[N]? else none

/-- The primary template `function_traits<F>` (function_traits.hh:46-60) on top of its
`call_type`, the traits of `decltype(&F::operator())`: `arity = call_type::arity - 1`, and
`arg<N>::type` is `call_type::arg<N+1>::type` under `static_assert(N < arity)`. -/
def function_traits_primary (call_type : Traits) : Traits where
  return_type := call_type.return_type
  arity := size_t_sub call_type.arity 1
  arg := fun N => if N < size_t_sub call_type.arity 1 then call_type.arg (size_t_add N 1) else none

/-- The template `function_traits<F>` with all its specialisations (function_traits.hh:6-66).
`env` gives, for a class name, the type of `&F::operator()` when the class has a call
operator; without one the primary template does not instantiate (`none`). -/
def function_traits (env : String → Option CallOperator) : FType → Option Traits
  | .func R Args => some (function_traits_func R Args)
  | .func_ptr R Args => some (function_traits_func R Args)
  | .mem_func C R Args => some (function_traits_func R (CppType.lref C :: Args))
  | .mem_func_const C R Args => some (function_traits_func R (CppType.lref C :: Args))
  | .mem_obj C R => some (function_traits_func R [CppType.lref C])
  | .const F => function_traits env F
  | .lref F => function_traits env F
  | .rref F => function_traits env F
  | .cls name =>
    match env name with
    | none => none
    | some op =>
      -- call_type = function_traits<decltype(&F::operator())>, a (const) member function pointer
      some (function_traits_primary (function_traits_func op.R (CppType.lref op.C :: op.Args)))

/-- The pointer-to-member-function type that `decltype(&F::operator())` denotes. -/
def CallOperator.toFType (op : CallOperator) : FType :=
  if op.is_const then FType.mem_func_const op.C op.R op.Args
  else FType.mem_func op.C op.R op.Args

/-- The closure type of the lambda `op` of `eop_examples` (test.cc:141-142),
`[](const float lhs, const float rhs) { return lhs + rhs; }`: its call operator has the type
`float (op::*)(float, float) const`; no other class is declared. -/
def eop_env (name : String) : Option CallOperator :=
  if name = "op" then
    some ⟨CppType.named "op", CppType.named "float",
      [CppType.named "float", CppType.named "float"], true⟩
  else none

/-- The normalised signature of a callable in the words of the specification (section 4.1):
a free function `R(A0,...,An)` and a pointer to it have return type `R` and parameters
`A0,...,An`; a pointer to member function, const or not, normalises to `R(C&, A0,...,An)`; a
pointer to a data member of type `R` on `C` normalises to `R(C&)`; a closure has the signature
of its call operator with the receiver dropped again; `const F`, `F&` and `F&&` resolve to the
signature of `F`. -/
def spec_signature (env : String → Option CallOperator) : FType → Option (CppType × List CppType)
  | .func R Args => some (R, Args)
  | .func_ptr R Args => some (R, Args)
  | .mem_func C R Args => some (R, CppType.lref C :: Args)
  | .mem_func_const C R Args => some (R, CppType.lref C :: Args)
  | .mem_obj C R => some (R, [CppType.lref C])
  | .const F => spec_signature env F
  | .lref F => spec_signature env F
  | .rref F => spec_signature env F
  | .cls name => (env name).map fun op => (op.R, op.Args)

/-! ## Definitions: capability predicates (`src/function_traits.hh`, lines 69-177)

A class template whose instantiation is rejected (a failing `static_assert`, a missing member)
has no `value`: `none`. -/

/-- `std::remove_reference<T>::type`. -/
def remove_reference : CppType → CppType
  | .lref t => t
  | .rref t => t
  | t => t

/-- `std::remove_cv<T>::type`: the top-level `const` and `volatile` qualifiers are removed. -/
def remove_cv : CppType → CppType
  | .const t => remove_cv t
  | .volatile t => remove_cv t
  | t => t

/-- `remove_cvr<T>::type` (function_traits.hh:90-93):
`std::remove_cv<std::remove_reference<T>::type>::type`. -/
def remove_cvr (T : CppType) : CppType := remove_cv (remove_reference T)

/-- The constant expression `A::value && B::value` used as a template argument: both class
templates are instantiated, whatever the value of the first. -/
def static_and (a b : Option Bool) : Option Bool :=
  match a, b with
  | some x, some y => some (x && y)
  | _, _ => none

/-- `is_unary<F>::value` (function_traits.hh:69-71). -/
def is_unary (env : String → Option CallOperator) (F : FType) : Option Bool :=
  (function_traits env F).map fun t => decide (t.arity = 1)

/-- `is_binary<F>::value` (function_traits.hh:73-75). -/
def is_binary (env : String → Option CallOperator) (F : FType) : Option Bool :=
  (function_traits env F).map fun t => decide (t.arity = 2)

/-- `codomain<F>::type` (function_traits.hh:81-82). -/
def codomain (env : String → Option CallOperator) (F : FType) : Option CppType :=
  (function_traits env F).map fun t => t.return_type

/-- `is_homogeneous_helper<idx, args>::value` (function_traits.hh:95-109): the base case at
index 0 is true; the recursive case at `idx` names `args<idx - 1>::type`, `args<idx>::type`
and `is_homogeneous_helper<idx - 1, args>::value`. -/
def is_homogeneous_helper (args : Nat → Option CppType) : Nat → Option Bool
  | 0 => some true
  | idx + 1 =>
    match args idx with
    | none => none
    | some a =>
      match args (idx + 1) with
      | none => none
      | some b =>
        match is_homogeneous_helper args idx with
        | none => none
        | some r => some (decide (remove_cvr a = remove_cvr b) && r)

/-- `is_homogeneous<F>::value` (function_traits.hh:111-119): the helper at index `arity - 1`,
a `std::size_t` subtraction, over `function_traits<F>::arg`. -/
def is_homogeneous (env : String → Option CallOperator) (F : FType) : Option Bool :=
  match function_traits env F with
  | none => none
  | some t => is_homogeneous_helper t.arg (size_t_sub t.arity 1)

/-- `is_predicate<F>::value` (function_traits.hh:122-124): the return type is `bool`. -/
def is_predicate (env : String → Option CallOperator) (F : FType) : Option Bool :=
  (function_traits env F).map fun t => decide (t.return_type = CppType.named "bool")

/-- `is_homogeneous_predicate<F>::value` (function_traits.hh:126-129). -/
def is_homogeneous_predicate (env : String → Option CallOperator) (F : FType) : Option Bool :=
  static_and (is_homogeneous env F) (is_predicate env F)

/-- `is_operation<F>::value` (function_traits.hh:137-142): the stripped `codomain<F>::type`
is the stripped `function_traits<F>::arg<0>::type`, and `is_homogeneous<F>::value`. -/
def is_operation (env : String → Option CallOperator) (F : FType) : Option Bool :=
  match function_traits env F with
  | none => none
  | some t =>
    match t.arg 0 with
    | none => none
    | some a0 =>
      static_and (some (decide (remove_cvr t.return_type = remove_cvr a0)))
        (is_homogeneous env F)

/-- `is_transformation<F>::value` (function_traits.hh:144-147). -/
def is_transformation (env : String → Option CallOperator) (F : FType) : Option Bool :=
  static_and (is_operation env F) (is_unary env F)

/-- `binary_operation<F>::value` (function_traits.hh:149-152). -/
def binary_operation (env : String → Option CallOperator) (F : FType) : Option Bool :=
  static_and (is_operation env F) (is_binary env F)

/-- `is_relation<F>::value` (function_traits.hh:174-177). -/
def is_relation (env : String → Option CallOperator) (F : FType) : Option Bool :=
  static_and (is_homogeneous_predicate env F)
    ((function_traits env F).map fun t => decide (t.arity = 2))

/-! ## Lemmas: orbit search -/

section OrbitLemmas

variable {D : Type}

/-- The ghost loop computes the same value as the loop. -/
theorem collison_point_loop_exit_fst [DecidableEq D] (f : D → D) (p : D → Bool) (fuel : Nat) (slow fast : D) :
    (collison_point_loop_exit f p fuel slow fast).map Prod.fst
      = collison_point_loop f p fuel slow fast := by
  induction fuel generalizing slow fast with
  | zero => by_cases h : fast = slow <;> simp [collison_point_loop_exit, collison_point_loop, h]
  | succ n ih =>
    simp only [collison_point_loop_exit, collison_point_loop]
    by_cases h : fast = slow
    · simp [h]
    · by_cases h1 : p fast = true
      · by_cases h2 : p (f fast) = true
        · simp [h, h1, h2, ih]
        · simp [h, h1, h2]
      · simp [h, h1]

/-- The ghost search computes the same value as `collison_point`. -/
theorem collison_point_exit_fst [DecidableEq D] (fuel : Nat) (x : D) (f : D → D) (p : D → Bool) :
    (collison_point_exit fuel x f p).map Prod.fst = collison_point fuel x f p := by
  unfold collison_point_exit collison_point
  by_cases h : p x = true
  · simp [h, collison_point_loop_exit_fst]
  · simp [h]

/-- If the orbit closes with `f^[2m+1] x = f^[m] x`, every orbit point already occurs among the
first `2m + 1` points. -/
theorem orbit_cover (f : D → D) (x : D) (m : Nat)
    (hm : f^[2 * m + 1] x = f^[m] x) : ∀ k, ∃ j, j ≤ 2 * m ∧ f^[k] x = f^[j] x := by
  intro k
  induction k using Nat.strong_induction_on with
  | _ k ih =>
    by_cases hk : k ≤ 2 * m
    · exact ⟨k, hk, rfl⟩
    · have hk1 : k = (k - (2 * m + 1)) + (2 * m + 1) := by omega
      have hk2 : k - (m + 1) = (k - (2 * m + 1)) + m := by omega
      have e : f^[k] x = f^[k - (m + 1)] x := by
        rw [hk2, Function.iterate_add_apply, ← hm, ← Function.iterate_add_apply, ← hk1]
      obtain ⟨j, hj, hj2⟩ := ih (k - (m + 1)) (by omega)
      exact ⟨j, hj, e.trans hj2⟩

/-- A predicate that holds on the first `2m + 1` points of an orbit closing at `m` holds on the
whole orbit. -/
theorem orbit_all_of_prefix (f : D → D) (p : D → Bool) (x : D) (m : Nat)
    (hm : f^[2 * m + 1] x = f^[m] x) (hp : ∀ j, j ≤ 2 * m → p (f^[j] x) = true) :
    ∀ k, p (f^[k] x) = true := by
  intro k
  obtain ⟨j, hj, e⟩ := orbit_cover f x m hm k
  rw [e]
  exact hp j hj

/-- An eventually periodic orbit (`f^[i] x = f^[j] x` with `i < j`) closes in the sense of the
tortoise and the hare: some `m` has `f^[2m+1] x = f^[m] x`. -/
theorem orbit_meet_of_periodic (f : D → D) (x : D) (i j : Nat) (hij : i < j)
    (h : f^[i] x = f^[j] x) : ∃ m, f^[2 * m + 1] x = f^[m] x := by
  obtain ⟨c, rfl⟩ : ∃ c, j = i + (c + 1) := ⟨j - i - 1, by omega⟩
  -- from index `i` on, the orbit has period `c + 1`
  have step : ∀ t, i ≤ t → f^[t + (c + 1)] x = f^[t] x := by
    intro t ht
    obtain ⟨d, rfl⟩ : ∃ d, t = d + i := ⟨t - i, by omega⟩
    rw [show d + i + (c + 1) = d + (i + (c + 1)) by omega, Function.iterate_add_apply,
      ← h, ← Function.iterate_add_apply]
  have mult : ∀ q t, i ≤ t → f^[t + q * (c + 1)] x = f^[t] x := by
    intro q
    induction q with
    | zero => intro t _; simp
    | succ q ih =>
      intro t ht
      rw [show t + (q + 1) * (c + 1) = (t + q * (c + 1)) + (c + 1) by ring,
        step _ (by omega), ih t ht]
  refine ⟨(i + 1) * (c + 1) - 1, ?_⟩
  have hpos : 1 ≤ (i + 1) * (c + 1) := Nat.mul_pos (by omega) (by omega)
  have hge : i ≤ (i + 1) * (c + 1) - 1 := by
    have : (i + 1) * 1 ≤ (i + 1) * (c + 1) := Nat.mul_le_mul_left _ (by omega)
    omega
  have e : 2 * ((i + 1) * (c + 1) - 1) + 1
      = ((i + 1) * (c + 1) - 1) + (i + 1) * (c + 1) := by omega
  rw [e]
  exact mult (i + 1) _ hge

/-- Unfolding: the loop condition fails at once when fast equals slow. -/
theorem collison_point_loop_exit_met [DecidableEq D] (f : D → D) (p : D → Bool) (fuel : Nat)
    (slow fast : D) (h : fast = slow) :
    collison_point_loop_exit f p fuel slow fast = some (fast, true) := by
  cases fuel <;> simp [collison_point_loop_exit, h]

/-- Unfolding: no fuel left and the loop condition holds. -/
theorem collison_point_loop_exit_zero [DecidableEq D] (f : D → D) (p : D → Bool)
    (slow fast : D) (h : fast ≠ slow) :
    collison_point_loop_exit f p 0 slow fast = none := by
  simp [collison_point_loop_exit, h]

/-- Unfolding: the first `return fast` of the loop body. -/
theorem collison_point_loop_exit_ret1 [DecidableEq D] (f : D → D) (p : D → Bool) (fuel : Nat)
    (slow fast : D) (h : fast ≠ slow) (h1 : p fast = false) :
    collison_point_loop_exit f p (fuel + 1) slow fast = some (fast, false) := by
  simp [collison_point_loop_exit, h, h1]

/-- Unfolding: the second `return fast` of the loop body. -/
theorem collison_point_loop_exit_ret2 [DecidableEq D] (f : D → D) (p : D → Bool) (fuel : Nat)
    (slow fast : D) (h : fast ≠ slow) (h1 : p fast = true) (h2 : p (f fast) = false) :
    collison_point_loop_exit f p (fuel + 1) slow fast = some (f fast, false) := by
  simp [collison_point_loop_exit, h, h1, h2]

/-- Unfolding: a full round of the loop body. -/
theorem collison_point_loop_exit_round [DecidableEq D] (f : D → D) (p : D → Bool) (fuel : Nat)
    (slow fast : D) (h : fast ≠ slow) (h1 : p fast = true) (h2 : p (f fast) = true) :
    collison_point_loop_exit f p (fuel + 1) slow fast
      = collison_point_loop_exit f p fuel (f slow) (f (f fast)) := by
  simp [collison_point_loop_exit, h, h1, h2]

/-- What the ghost loop returns, started in round `n` (slow is `f^[n] x`, fast is
`f^[2n+1] x`, and `p` has been found true at the indices up to `2n`): either slow met fast in
some round `m`, or the returned value is the first orbit point where `p` fails. -/
theorem collison_point_loop_exit_sound [DecidableEq D] (f : D → D) (p : D → Bool) (x : D) :
    ∀ (fuel n : Nat) (y : D) (b : Bool), (∀ j, j ≤ 2 * n → p (f^[j] x) = true) →
      collison_point_loop_exit f p fuel (f^[n] x) (f^[2 * n + 1] x) = some (y, b) →
      (b = true ∧ ∃ m, n ≤ m ∧ y = f^[m] x ∧ f^[2 * m + 1] x = f^[m] x ∧
          ∀ j, j ≤ 2 * m → p (f^[j] x) = true) ∨
      (b = false ∧ ∃ k, p (f^[k] x) = false ∧ (∀ j, j < k → p (f^[j] x) = true) ∧
          y = f^[k] x) := by
  intro fuel
  induction fuel with
  | zero =>
    intro n y b hp h
    by_cases e : f^[2 * n + 1] x = f^[n] x
    · rw [collison_point_loop_exit_met f p _ _ _ e, Option.some.injEq, Prod.mk.injEq] at h
      exact Or.inl ⟨h.2.symm, n, le_refl _, h.1.symm.trans e, e, hp⟩
    · rw [collison_point_loop_exit_zero f p _ _ e] at h
      exact absurd h (by simp)
  | succ fuel ih =>
    intro n y b hp h
    by_cases e : f^[2 * n + 1] x = f^[n] x
    · rw [collison_point_loop_exit_met f p _ _ _ e, Option.some.injEq, Prod.mk.injEq] at h
      exact Or.inl ⟨h.2.symm, n, le_refl _, h.1.symm.trans e, e, hp⟩
    · have e2 : f (f^[2 * n + 1] x) = f^[2 * n + 2] x :=
        (Function.iterate_succ_apply' f (2 * n + 1) x).symm
      cases h1 : p (f^[2 * n + 1] x) with
      | false =>
        rw [collison_point_loop_exit_ret1 f p _ _ _ e h1, Option.some.injEq,
          Prod.mk.injEq] at h
        exact Or.inr ⟨h.2.symm, 2 * n + 1, h1, fun j hj => hp j (by omega), h.1.symm⟩
      | true =>
        cases h2 : p (f^[2 * n + 2] x) with
        | false =>
          rw [collison_point_loop_exit_ret2 f p _ _ _ e h1 (by rw [e2]; exact h2),
            Option.some.injEq, Prod.mk.injEq, e2] at h
          refine Or.inr ⟨h.2.symm, 2 * n + 2, h2, ?_, h.1.symm⟩
          intro j hj
          rcases Nat.lt_or_ge j (2 * n + 1) with hlt | hge
          · exact hp j (by omega)
          · have : j = 2 * n + 1 := by omega
            rw [this]; exact h1
        | true =>
          have e3 : f (f^[2 * n + 2] x) = f^[2 * (n + 1) + 1] x :=
            (Function.iterate_succ_apply' f (2 * n + 2) x).symm
          have e4 : f (f^[n] x) = f^[n + 1] x := (Function.iterate_succ_apply' f n x).symm
          rw [collison_point_loop_exit_round f p _ _ _ e h1 (by rw [e2]; exact h2),
            e2, e3, e4] at h
          have hp2 : ∀ j, j ≤ 2 * (n + 1) → p (f^[j] x) = true := by
            intro j hj
            rcases Nat.lt_or_ge j (2 * n + 1) with hlt | hge
            · exact hp j (by omega)
            · rcases Nat.eq_or_lt_of_le hge with heq | hgt
              · rw [← heq]; exact h1
              · have : j = 2 * n + 2 := by omega
                rw [this]; exact h2
          rcases ih (n + 1) y b hp2 h with ⟨hb, m, hm, r⟩ | r
          · exact Or.inl ⟨hb, m, by omega, r⟩
          · exact Or.inr r

/-- The ghost loop returns within `m - n` rounds when slow meets fast in round `m`. -/
theorem collison_point_loop_exit_isSome_of_meet [DecidableEq D] (f : D → D) (p : D → Bool)
    (x : D) (m : Nat) (hm : f^[2 * m + 1] x = f^[m] x) :
    ∀ (fuel n : Nat), n ≤ m → m ≤ n + fuel →
      (collison_point_loop_exit f p fuel (f^[n] x) (f^[2 * n + 1] x)).isSome = true := by
  intro fuel
  induction fuel with
  | zero =>
    intro n h1 h2
    have : n = m := by omega
    subst this
    rw [collison_point_loop_exit_met f p _ _ _ hm]; rfl
  | succ fuel ih =>
    intro n hn1 hn2
    by_cases e : f^[2 * n + 1] x = f^[n] x
    · rw [collison_point_loop_exit_met f p _ _ _ e]; rfl
    · have hne : n ≠ m := fun h => e (h ▸ hm)
      cases h1 : p (f^[2 * n + 1] x) with
      | false => rw [collison_point_loop_exit_ret1 f p _ _ _ e h1]; rfl
      | true =>
        cases h2 : p (f (f^[2 * n + 1] x)) with
        | false => rw [collison_point_loop_exit_ret2 f p _ _ _ e h1 h2]; rfl
        | true =>
          rw [collison_point_loop_exit_round f p _ _ _ e h1 h2,
            ← Function.iterate_succ_apply' f n x, ← Function.iterate_succ_apply' f (2 * n + 1) x,
            ← Function.iterate_succ_apply' f (2 * n + 1 + 1) x]
          exact ih (n + 1) (by omega) (by omega)

/-- The ghost loop returns once fast has walked past an index `k` where `p` fails. -/
theorem collison_point_loop_exit_isSome_of_fail [DecidableEq D] (f : D → D) (p : D → Bool)
    (x : D) (k : Nat) (hk : p (f^[k] x) = false) :
    ∀ (fuel n : Nat), k ≤ 2 * (n + fuel) →
      (collison_point_loop_exit f p fuel (f^[n] x) (f^[2 * n + 1] x)).isSome = true ∨
        ∃ j, j ≤ 2 * n ∧ p (f^[j] x) = false := by
  intro fuel
  induction fuel with
  | zero => intro n h; exact Or.inr ⟨k, by omega, hk⟩
  | succ fuel ih =>
    intro n hn
    by_cases e : f^[2 * n + 1] x = f^[n] x
    · left; rw [collison_point_loop_exit_met f p _ _ _ e]; rfl
    · cases h1 : p (f^[2 * n + 1] x) with
      | false => left; rw [collison_point_loop_exit_ret1 f p _ _ _ e h1]; rfl
      | true =>
        cases h2 : p (f (f^[2 * n + 1] x)) with
        | false => left; rw [collison_point_loop_exit_ret2 f p _ _ _ e h1 h2]; rfl
        | true =>
          rw [collison_point_loop_exit_round f p _ _ _ e h1 h2,
            ← Function.iterate_succ_apply' f n x, ← Function.iterate_succ_apply' f (2 * n + 1) x,
            ← Function.iterate_succ_apply' f (2 * n + 1 + 1) x]
          rcases ih (n + 1) (by omega) with h | ⟨j, hj, hpj⟩
          · exact Or.inl h
          · right
            rcases Nat.lt_or_ge j (2 * n + 1) with hlt | hge
            · exact ⟨j, by omega, hpj⟩
            · exfalso
              rcases Nat.eq_or_lt_of_le hge with heq | hgt
              · rw [← heq, h1] at hpj; exact absurd hpj (by simp)
              · have hj2 : j = 2 * n + 1 + 1 := by omega
                rw [hj2, Function.iterate_succ_apply', h2] at hpj
                exact absurd hpj (by simp)

/-- What the ghost search returns: either slow met fast in some round `m` (and `p` holds on
the first `2m + 1` orbit points), or the returned value is the first orbit point where `p`
fails. -/
theorem collison_point_exit_sound [DecidableEq D] (fuel : Nat) (x : D) (f : D → D)
    (p : D → Bool) (y : D) (b : Bool) (h : collison_point_exit fuel x f p = some (y, b)) :
    (b = true ∧ ∃ m, y = f^[m] x ∧ f^[2 * m + 1] x = f^[m] x ∧
        ∀ j, j ≤ 2 * m → p (f^[j] x) = true) ∨
    (b = false ∧ ∃ k, p (f^[k] x) = false ∧ (∀ j, j < k → p (f^[j] x) = true) ∧
        y = f^[k] x) := by
  unfold collison_point_exit at h
  cases h0 : p x with
  | false =>
    simp only [h0, Bool.not_false, if_true, Option.some.injEq, Prod.mk.injEq] at h
    exact Or.inr ⟨h.2.symm, 0, h0, fun j hj => absurd hj (Nat.not_lt_zero j), h.1.symm⟩
  | true =>
    simp only [h0, Bool.not_true, Bool.false_eq_true, if_false] at h
    have hp0 : ∀ j, j ≤ 2 * 0 → p (f^[j] x) = true := by
      intro j hj
      have : j = 0 := by omega
      subst this; exact h0
    rcases collison_point_loop_exit_sound f p x fuel 0 y b hp0 h with ⟨hb, m, _, r⟩ | r
    · exact Or.inl ⟨hb, m, r⟩
    · exact Or.inr r

/-- The ghost search returns when `p` fails at index `k` and `k ≤ 2 * fuel`. -/
theorem collison_point_exit_isSome_of_fail [DecidableEq D] (fuel : Nat) (x : D) (f : D → D)
    (p : D → Bool) (k : Nat) (hk : p (f^[k] x) = false) (hf : k ≤ 2 * fuel) :
    (collison_point_exit fuel x f p).isSome = true := by
  unfold collison_point_exit
  cases h0 : p x with
  | false => simp
  | true =>
    simp only [Bool.not_true, Bool.false_eq_true, if_false]
    rcases collison_point_loop_exit_isSome_of_fail f p x k hk fuel 0 (by omega) with h | ⟨j, hj, hpj⟩
    · exact h
    · have : j = 0 := by omega
      subst this
      rw [Function.iterate_zero_apply, h0] at hpj
      exact absurd hpj (by simp)

/-- The ghost search returns when slow meets fast in round `m` and `m ≤ fuel`. -/
theorem collison_point_exit_isSome_of_meet [DecidableEq D] (fuel : Nat) (x : D) (f : D → D)
    (p : D → Bool) (m : Nat) (hm : f^[2 * m + 1] x = f^[m] x) (hf : m ≤ fuel) :
    (collison_point_exit fuel x f p).isSome = true := by
  unfold collison_point_exit
  cases h0 : p x with
  | false => simp
  | true =>
    simp only [Bool.not_true, Bool.false_eq_true, if_false]
    exact collison_point_loop_exit_isSome_of_meet f p x m hm fuel 0 (Nat.zero_le _) (by omega)

/-- The ghost search returns, given enough fuel, on every orbit that leaves the `p`-region or
is eventually periodic. -/
theorem collison_point_exit_isSome [DecidableEq D] (x : D) (f : D → D) (p : D → Bool)
    (h : (∃ k, p (f^[k] x) = false) ∨ (∃ i j, i < j ∧ f^[i] x = f^[j] x)) :
    ∃ N, ∀ fuel, N ≤ fuel → (collison_point_exit fuel x f p).isSome = true := by
  rcases h with ⟨k, hk⟩ | ⟨i, j, hij, e⟩
  · exact ⟨k, fun fuel hf => collison_point_exit_isSome_of_fail fuel x f p k hk (by omega)⟩
  · obtain ⟨m, hm⟩ := orbit_meet_of_periodic f x i j hij e
    exact ⟨m, fun fuel hf => collison_point_exit_isSome_of_meet fuel x f p m hm hf⟩

/-- A value returned by `collison_point` is returned by the ghost search through some exit. -/
theorem collison_point_exit_of_some [DecidableEq D] (fuel : Nat) (x : D) (f : D → D)
    (p : D → Bool) (y : D) (h : collison_point fuel x f p = some y) :
    ∃ b, collison_point_exit fuel x f p = some (y, b) := by
  rw [← collison_point_exit_fst] at h
  cases hc : collison_point_exit fuel x f p with
  | none => rw [hc] at h; exact absurd h (by simp)
  | some r =>
    rw [hc, Option.map_some', Option.some.injEq] at h
    exact ⟨r.2, by rw [← h]⟩

/-- When the ghost search returns, `collison_point` returns. -/
theorem collison_point_isSome_of_exit [DecidableEq D] (fuel : Nat) (x : D) (f : D → D)
    (p : D → Bool) (h : (collison_point_exit fuel x f p).isSome = true) :
    (collison_point fuel x f p).isSome = true := by
  rw [← collison_point_exit_fst, Option.isSome_map']
  exact h

/-- On a pure cycle through `x` (`f^[c] x = x`), the iterates of `f` can be cancelled. -/
theorem cycle_cancel (f : D → D) (x : D) (c m : Nat) (hc : f^[c] x = x) (h1 : 1 ≤ c)
    (hm : f^[2 * m + 1] x = f^[m] x) : f^[m + 1] x = x := by
  have hN : f^[c * m] x = x := by
    rw [Function.iterate_mul]
    exact Function.iterate_fixed hc m
  have hle : m ≤ c * m := Nat.le_mul_of_pos_left m h1
  have e1 : f^[c * m] (f^[m + 1] x) = f^[m + 1] x := by
    rw [← Function.iterate_add_apply, Nat.add_comm, Function.iterate_add_apply, hN]
  have e2 : f^[c * m] (f^[m + 1] x) = x := by
    rw [← Function.iterate_add_apply,
      show c * m + (m + 1) = (c * m - m) + (2 * m + 1) by omega,
      Function.iterate_add_apply, hm, ← Function.iterate_add_apply,
      show c * m - m + m = c * m by omega, hN]
  rw [← e1, e2]

/-- What `collison_point` returns: either a point `y` with `p y` true at which slow met fast,
on an orbit that lies inside the `p`-region, or a point with `p y` false, on an orbit that
leaves the `p`-region. -/
theorem collison_point_cases [DecidableEq D] (fuel : Nat) (x : D) (f : D → D) (p : D → Bool)
    (y : D) (h : collison_point fuel x f p = some y) :
    (p y = true ∧ (∃ m, y = f^[m] x ∧ f^[2 * m + 1] x = f^[m] x) ∧
        ∀ k, p (f^[k] x) = true) ∨
    (p y = false ∧ ∃ k, p (f^[k] x) = false) := by
  obtain ⟨b, hb⟩ := collison_point_exit_of_some fuel x f p y h
  rcases collison_point_exit_sound fuel x f p y b hb with ⟨_, m, ey, hm, hp⟩ | ⟨_, k, hk, _, ey⟩
  · have hall := orbit_all_of_prefix f p x m hm hp
    exact Or.inl ⟨by rw [ey]; exact hall m, ⟨m, ey, hm⟩, hall⟩
  · exact Or.inr ⟨by rw [ey]; exact hk, k, hk⟩

/-- The loop invariant of the search is kept by a full round: slow is `f^[n] x`, fast is
`f^[2n+1] x`, and `p` holds at the orbit indices up to `2n`. -/
theorem tortoise_hare_round (f : D → D) (p : D → Bool) (x slow fast : D)
    (h : ∃ n, slow = f^[n] x ∧ fast = f^[2 * n + 1] x ∧ ∀ j, j ≤ 2 * n → p (f^[j] x) = true)
    (h1 : p fast = true) (h2 : p (f fast) = true) :
    ∃ n, f slow = f^[n] x ∧ f (f fast) = f^[2 * n + 1] x ∧
      ∀ j, j ≤ 2 * n → p (f^[j] x) = true := by
  obtain ⟨n, hs, hf, hp⟩ := h
  have e2 : f fast = f^[2 * n + 2] x := by
    rw [hf]; exact (Function.iterate_succ_apply' f (2 * n + 1) x).symm
  refine ⟨n + 1, ?_, ?_, ?_⟩
  · rw [hs]; exact (Function.iterate_succ_apply' f n x).symm
  · rw [e2]; exact (Function.iterate_succ_apply' f (2 * n + 2) x).symm
  · intro j hj
    rcases Nat.lt_or_ge j (2 * n + 1) with hlt | hge
    · exact hp j (by omega)
    · rcases Nat.eq_or_lt_of_le hge with heq | hgt
      · rw [← heq, ← hf]; exact h1
      · have : j = 2 * n + 2 := by omega
        rw [this, ← e2]; exact h2

/-- Under the loop invariant, `p` holds at slow. -/
theorem tortoise_in_region (f : D → D) (p : D → Bool) (x slow fast : D)
    (h : ∃ n, slow = f^[n] x ∧ fast = f^[2 * n + 1] x ∧ ∀ j, j ≤ 2 * n → p (f^[j] x) = true) :
    p slow = true := by
  obtain ⟨n, hs, _, hp⟩ := h
  rw [hs]; exact hp n (by omega)

/-- Under the loop invariant, every argument that the loop passes to `f` satisfies `p`. -/
theorem collison_point_loop_calls_in_region [DecidableEq D] (f : D → D) (p : D → Bool) (x : D) :
    ∀ (fuel : Nat) (slow fast : D),
      (∃ n, slow = f^[n] x ∧ fast = f^[2 * n + 1] x ∧ ∀ j, j ≤ 2 * n → p (f^[j] x) = true) →
      ∀ a, a ∈ collison_point_loop_calls f p fuel slow fast → p a = true := by
  intro fuel
  induction fuel with
  | zero => intro slow fast _ a ha; simp [collison_point_loop_calls] at ha
  | succ fuel ih =>
    intro slow fast hinv a ha
    have hslow := tortoise_in_region f p x slow fast hinv
    by_cases e : fast = slow
    · simp [collison_point_loop_calls, e] at ha
    · cases h1 : p fast with
      | false =>
        simp [collison_point_loop_calls, e, h1] at ha
        rw [ha]; exact hslow
      | true =>
        cases h2 : p (f fast) with
        | false =>
          simp [collison_point_loop_calls, e, h1, h2] at ha
          rcases ha with ha | ha
          · rw [ha]; exact hslow
          · rw [ha]; exact h1
        | true =>
          simp [collison_point_loop_calls, e, h1, h2] at ha
          rcases ha with ha | ha | ha | ha
          · rw [ha]; exact hslow
          · rw [ha]; exact h1
          · rw [ha]; exact h2
          · exact ih (f slow) (f (f fast)) (tortoise_hare_round f p x slow fast hinv h1 h2) a ha

/-- Under the loop invariant, the loop run with `f` and the loop run with a transformation `g`
that agrees with `f` wherever `p` holds return the same. -/
theorem collison_point_loop_congr [DecidableEq D] (f g : D → D) (p : D → Bool) (x : D)
    (hfg : ∀ v, p v = true → f v = g v) :
    ∀ (fuel : Nat) (slow fast : D),
      (∃ n, slow = f^[n] x ∧ fast = f^[2 * n + 1] x ∧ ∀ j, j ≤ 2 * n → p (f^[j] x) = true) →
      collison_point_loop f p fuel slow fast = collison_point_loop g p fuel slow fast := by
  intro fuel
  induction fuel with
  | zero => intro slow fast _; simp [collison_point_loop]
  | succ fuel ih =>
    intro slow fast hinv
    have hslow := tortoise_in_region f p x slow fast hinv
    by_cases e : fast = slow
    · simp [collison_point_loop, e]
    · cases h1 : p fast with
      | false => simp [collison_point_loop, e, h1]
      | true =>
        have e1 : g fast = f fast := (hfg fast h1).symm
        cases h2 : p (f fast) with
        | false => simp [collison_point_loop, e, h1, h2, e1]
        | true =>
          have e2 : g (f fast) = f (f fast) := (hfg (f fast) h2).symm
          have e3 : g slow = f slow := (hfg slow hslow).symm
          simp only [collison_point_loop, ne_eq, e, not_false_eq_true, if_true, h1, h2, e1, e2,
            e3, Bool.not_true, Bool.false_eq_true, if_false]
          exact ih (f slow) (f (f fast)) (tortoise_hare_round f p x slow fast hinv h1 h2)

end OrbitLemmas

/-! ## Lemmas: folds and the safe-addition check -/

/-- The loop of `reduce_nonempty` is the left fold started from the accumulator. -/
theorem reduce_nonempty_loop_eq_foldl {D : Type} (op : D → D → D) (r : D) (rest : List D) :
    reduce_nonempty_loop op r rest = List.foldl op r rest := by
  induction rest generalizing r with
  | nil => rfl
  | cons e rest ih => simp [reduce_nonempty_loop, ih]

/-- The calls made by the loop of `reduce_nonempty`: each element is paired with the
accumulator reached before it. -/
theorem reduce_nonempty_loop_calls_eq {D : Type} (op : D → D → D) (r : D) (rest : List D) :
    reduce_nonempty_loop_calls op r rest = (List.scanl op r rest).zip rest := by
  induction rest generalizing r with
  | nil => simp [reduce_nonempty_loop_calls]
  | cons e rest ih => simp [reduce_nonempty_loop_calls, ih]

/-- The standard fold as the library left fold. -/
theorem std_accumulate_eq_foldl {D : Type} (op : D → D → D) (init : D) (s : List D) :
    std_accumulate s init op = List.foldl op init s := by
  induction s generalizing init with
  | nil => rfl
  | cons e rest ih => simp [std_accumulate, ih]

/-- Reduction to `w` bits leaves a value of the `w`-bit signed range unchanged. -/
theorem wrap_eq_self (w : Nat) (hw : 0 < w) (v : Int)
    (h1 : numeric_limits_min w ≤ v) (h2 : v ≤ numeric_limits_max w) : wrap w v = v := by
  unfold numeric_limits_min at h1
  unfold numeric_limits_max at h2
  unfold wrap
  have hpow : (2 : Int) ^ w = 2 * 2 ^ (w - 1) := by
    obtain ⟨n, rfl⟩ : ∃ n, w = n + 1 := ⟨w - 1, by omega⟩
    simp [pow_succ, mul_comm]
  have hP : (0 : Int) < 2 ^ (w - 1) := by positivity
  rw [hpow, Int.emod_eq_of_lt (by omega) (by omega)]
  omega

/-! ## Lemmas: callable classification -/

/-- The `arg` member of `function_traits<R(Args...)>` is the lookup in the parameter list. -/
theorem function_traits_func_arg (R : CppType) (Args : List CppType) (N : Nat) :
    (function_traits_func R Args).arg N = Args[N]? := by
  by_cases h : N < Args.length
  · simp [function_traits_func, h]
  · simp [function_traits_func, h, List.getElem?_eq_none (Nat.le_of_not_lt h)]

/-- Subtracting one from a positive `std::size_t` value does not wrap. -/
theorem size_t_sub_succ_one (n : Nat) (h : n + 1 < 2 ^ 64) : size_t_sub (n + 1) 1 = n := by
  unfold size_t_sub
  rw [Nat.mod_eq_of_lt (show 1 < 2 ^ 64 by decide),
    show n + 1 + 2 ^ 64 - 1 = n + 2 ^ 64 by omega,
    Nat.add_mod_right, Nat.mod_eq_of_lt (by omega)]

/-- The `arg` member of the primary template over a call operator of type
`R (C::*)(Args...)` is the lookup in `Args`. -/
theorem function_traits_primary_arg (C R : CppType) (Args : List CppType)
    (h : Args.length + 1 < 2 ^ 64) (N : Nat) :
    (function_traits_primary (function_traits_func R (CppType.lref C :: Args))).arg N
      = Args[N]? := by
  have harity : (function_traits_func R (CppType.lref C :: Args)).arity = Args.length + 1 := rfl
  simp only [function_traits_primary, harity, size_t_sub_succ_one _ h]
  by_cases hN : N < Args.length
  · have hadd : size_t_add N 1 = N + 1 := by
      unfold size_t_add
      exact Nat.mod_eq_of_lt (by omega)
    rw [if_pos hN, hadd, function_traits_func_arg]
    simp
  · rw [if_neg hN, List.getElem?_eq_none (Nat.le_of_not_lt hN)]

/-- The traits that `function_traits` computes are those of the normalised signature of the
specification: same return type, `arity` the number of parameters, `arg<N>` the lookup of
parameter `N`. -/
theorem function_traits_eq_spec (env : String → Option CallOperator)
    (hsize : ∀ name op, env name = some op → op.Args.length + 1 < 2 ^ 64) :
    ∀ (F : FType) (t : Traits), function_traits env F = some t →
      ∃ sig, spec_signature env F = some sig ∧ t.return_type = sig.1 ∧
        t.arity = sig.2.length ∧ ∀ N, t.arg N = sig.2[N]? := by
  intro F
  induction F with
  | func R Args =>
    intro t ht
    simp only [function_traits, Option.some.injEq] at ht
    subst ht
    exact ⟨(R, Args), rfl, rfl, rfl, function_traits_func_arg R Args⟩
  | func_ptr R Args =>
    intro t ht
    simp only [function_traits, Option.some.injEq] at ht
    subst ht
    exact ⟨(R, Args), rfl, rfl, rfl, function_traits_func_arg R Args⟩
  | mem_func C R Args =>
    intro t ht
    simp only [function_traits, Option.some.injEq] at ht
    subst ht
    exact ⟨(R, CppType.lref C :: Args), rfl, rfl, rfl, function_traits_func_arg R _⟩
  | mem_func_const C R Args =>
    intro t ht
    simp only [function_traits, Option.some.injEq] at ht
    subst ht
    exact ⟨(R, CppType.lref C :: Args), rfl, rfl, rfl, function_traits_func_arg R _⟩
  | mem_obj C R =>
    intro t ht
    simp only [function_traits, Option.some.injEq] at ht
    subst ht
    exact ⟨(R, [CppType.lref C]), rfl, rfl, rfl, function_traits_func_arg R _⟩
  | const F ih => intro t ht; exact ih t ht
  | lref F ih => intro t ht; exact ih t ht
  | rref F ih => intro t ht; exact ih t ht
  | cls name =>
    intro t ht
    simp only [function_traits] at ht
    cases hop : env name with
    | none => rw [hop] at ht; exact absurd ht (by simp)
    | some op =>
      rw [hop] at ht
      simp only [Option.some.injEq] at ht
      subst ht
      have hlen := hsize name op hop
      refine ⟨(op.R, op.Args), by simp [spec_signature, hop], rfl, ?_, ?_⟩
      · exact size_t_sub_succ_one _ hlen
      · exact function_traits_primary_arg op.C op.R op.Args hlen

/-- Beyond the arity every parameter query is rejected, for every shape. -/
theorem function_traits_arg_none (env : String → Option CallOperator) :
    ∀ (F : FType) (t : Traits), function_traits env F = some t →
      ∀ N, t.arity ≤ N → t.arg N = none := by
  intro F
  induction F with
  | func R Args | func_ptr R Args | mem_func C R Args | mem_func_const C R Args | mem_obj C R =>
    intro t ht N hN
    simp only [function_traits, Option.some.injEq] at ht
    subst ht
    have hlt : ¬ N < (function_traits_func R _).arity := Nat.not_lt.mpr hN
    simp only [function_traits_func] at hlt ⊢
    rw [if_neg hlt]
  | const F ih | lref F ih | rref F ih => intro t ht; exact ih t ht
  | cls name =>
    intro t ht N hN
    simp only [function_traits] at ht
    cases hop : env name with
    | none => rw [hop] at ht; exact absurd ht (by simp)
    | some op =>
      rw [hop] at ht
      simp only [Option.some.injEq] at ht
      subst ht
      have hlt : ¬ N < (function_traits_primary
          (function_traits_func op.R (CppType.lref op.C :: op.Args))).arity := Nat.not_lt.mpr hN
      simp only [function_traits_primary] at hlt ⊢
      rw [if_neg hlt]

/-- The recursive case of the helper is rejected when `args<idx - 1>` is. -/
theorem is_homogeneous_helper_none (args : Nat → Option CppType) (idx : Nat)
    (h : args idx = none) : is_homogeneous_helper args (idx + 1) = none := by
  simp [is_homogeneous_helper, h]

/-- When `args<k>` succeeds for every `k ≤ idx`, the helper at `idx` has a value, which is true
exactly when the stripped types of all adjacent pairs `(k, k + 1)` up to `idx` are equal. -/
theorem is_homogeneous_helper_adjacent (args : Nat → Option CppType) :
    ∀ idx, (∀ k, k ≤ idx → ∃ T, args k = some T) →
      ∃ b, is_homogeneous_helper args idx = some b ∧
        (b = true ↔ ∀ k, k < idx →
          (args k).map remove_cvr = (args (k + 1)).map remove_cvr) := by
  intro idx
  induction idx with
  | zero =>
    intro _
    exact ⟨true, rfl, by simp⟩
  | succ n ih =>
    intro hargs
    obtain ⟨a, ha⟩ := hargs n (by omega)
    obtain ⟨c, hc⟩ := hargs (n + 1) (by omega)
    obtain ⟨r, hr, hiff⟩ := ih (fun k hk => hargs k (by omega))
    refine ⟨decide (remove_cvr a = remove_cvr c) && r, by
      simp [is_homogeneous_helper, ha, hc, hr], ?_⟩
    rw [Bool.and_eq_true, decide_eq_true_iff, hiff]
    constructor
    · rintro ⟨hac, hadj⟩ k hk
      rcases Nat.lt_or_ge k n with hlt | hge
      · exact hadj k hlt
      · have : k = n := by omega
        subst this
        rw [ha, hc, Option.map_some', Option.map_some', hac]
    · intro hadj
      refine ⟨?_, fun k hk => hadj k (by omega)⟩
      have := hadj n (by omega)
      rw [ha, hc, Option.map_some', Option.map_some', Option.some.injEq] at this
      exact this

/-- Equality of all adjacent pairs of a finite sequence is equality of all pairs. -/
theorem adjacent_eq_iff_all_eq {α : Type} (g : Nat → α) (n : Nat) :
    (∀ k, k < n → g k = g (k + 1)) ↔ ∀ i j, i ≤ n → j ≤ n → g i = g j := by
  constructor
  · intro hadj
    have h0 : ∀ i, i ≤ n → g i = g 0 := by
      intro i
      induction i with
      | zero => intro _; rfl
      | succ i ih =>
        intro hi
        rw [← hadj i (by omega)]
        exact ih (by omega)
    intro i j hi hj
    rw [h0 i hi, h0 j hj]
  · intro hall k hk
    exact hall k (k + 1) (by omega) (by omega)

/-- Both operands of a true `static_and` are true. -/
theorem static_and_eq_true (a b : Option Bool) :
    static_and a b = some true ↔ a = some true ∧ b = some true := by
  cases a with
  | none => simp [static_and]
  | some x =>
    cases b with
    | none => simp [static_and]
    | some y => simp [static_and]

/-- Unfolding `is_homogeneous` on instantiated traits. -/
theorem is_homogeneous_of_traits (env : String → Option CallOperator) (F : FType) (t : Traits)
    (ht : function_traits env F = some t) :
    is_homogeneous env F = is_homogeneous_helper t.arg (size_t_sub t.arity 1) := by
  unfold is_homogeneous
  rw [ht]

/-- Unfolding `is_operation` on instantiated traits with a parameter 0. -/
theorem is_operation_of_traits (env : String → Option CallOperator) (F : FType) (t : Traits)
    (a0 : CppType) (ht : function_traits env F = some t) (ha : t.arg 0 = some a0) :
    is_operation env F
      = static_and (some (decide (remove_cvr t.return_type = remove_cvr a0)))
          (is_homogeneous env F) := by
  unfold is_operation
  rw [ht]
  simp only
  rw [ha]

/-- An operation has instantiated traits and a parameter 0. -/
theorem is_operation_some_true (env : String → Option CallOperator) (F : FType)
    (h : is_operation env F = some true) :
    ∃ t a0, function_traits env F = some t ∧ t.arg 0 = some a0 := by
  unfold is_operation at h
  cases ht : function_traits env F with
  | none => rw [ht] at h; exact absurd h (by simp)
  | some t =>
    rw [ht] at h
    simp only at h
    cases ha : t.arg 0 with
    | none => rw [ha] at h; exact absurd h (by simp)
    | some a0 => exact ⟨t, a0, rfl, ha⟩

/-! ## Theorems: orbit search -/

section OrbitTheorems

variable {D : Type} [DecidableEq D]

/-- C1: if `p` fails somewhere on the orbit of `x` and `k` is the least index with
`p (f^[k] x)` false, then `collison_point(x, f, p)` returns exactly `f^[k] x` (as soon as the
loop may run `k / 2` rounds, rounded up); in particular, when `p x` is false it returns `x`
whatever the transformation is. -/
theorem collison_point_first_failure (x : D) (f : D → D) (p : D → Bool) :
    (∀ k, p (f^[k] x) = false → (∀ j, j < k → p (f^[j] x) = true) →
        ∀ fuel, k ≤ 2 * fuel → collison_point fuel x f p = some (f^[k] x)) ∧
    (p x = false → ∀ (g : D → D) (fuel : Nat), collison_point fuel x g p = some x) := by
  constructor
  · intro k hk hmin fuel hf
    have hs := collison_point_exit_isSome_of_fail fuel x f p k hk hf
    obtain ⟨⟨y, b⟩, hy⟩ := Option.isSome_iff_exists.mp hs
    have hc : collison_point fuel x f p = some y := by
      rw [← collison_point_exit_fst, hy]; rfl
    rw [hc]
    rcases collison_point_exit_sound fuel x f p y b hy with ⟨_, m, _, hm, hp⟩ | ⟨_, k', hk', hmin', e⟩
    · have := orbit_all_of_prefix f p x m hm hp k
      rw [hk] at this
      exact absurd this (by simp)
    · have hkk : k' = k := by
        rcases Nat.lt_trichotomy k' k with h | h | h
        · have := hmin k' h
          rw [hk'] at this; exact absurd this (by simp)
        · exact h
        · have := hmin' k h
          rw [hk] at this; exact absurd this (by simp)
      rw [e, hkk]
  · intro h0 g fuel
    simp [collison_point, h0]

set_option maxRecDepth 100000 in
/-- C1 at the values of `eop_examples`: from `x = 0x7FFFFFFF - 133` with `f(v) = v + 1` and
`p(v)` = "`v + 1` fits signed 32 bits", whose first failure is at index 133, the search
returns `0x7FFFFFFF`. -/
theorem collison_point_first_failure_witness :
    defspace (eop_successor^[133] eop_x) = false ∧
      (∀ j, j < 133 → defspace (eop_successor^[j] eop_x) = true) ∧
      collison_point 67 eop_x eop_successor defspace = some 0x7FFFFFFF := by
  have h1 : defspace (eop_successor^[133] eop_x) = false := by decide
  have h2 : ∀ j, j < 133 → defspace (eop_successor^[j] eop_x) = true := by decide
  have h3 : eop_successor^[133] eop_x = 0x7FFFFFFF := by decide
  refine ⟨h1, h2, ?_⟩
  rw [← h3]
  exact (collison_point_first_failure eop_x eop_successor defspace).1 133 h1 h2 67 (by decide)

/-- C2: when the orbit of `x` contains a point where `p` is false, or is eventually periodic
(`f^[i] x = f^[j] x` for some `i < j`), the loop of `collison_point(x, f, p)` ends after
finitely many rounds and a value is returned: from some fuel on the result is never `none`. -/
theorem collison_point_terminates (x : D) (f : D → D) (p : D → Bool)
    (h : (∃ k, p (f^[k] x) = false) ∨ (∃ i j, i < j ∧ f^[i] x = f^[j] x)) :
    ∃ N, ∀ fuel, N ≤ fuel → ∃ y, collison_point fuel x f p = some y := by
  obtain ⟨N, hN⟩ := collison_point_exit_isSome x f p h
  refine ⟨N, fun fuel hf => ?_⟩
  exact Option.isSome_iff_exists.mp (collison_point_isSome_of_exit fuel x f p (hN fuel hf))

/-- C2 on an eventually periodic orbit inside the `p`-region: the rotation `v ↦ (v + 1) % 5`
started at `7`, with `p` always true. -/
theorem collison_point_terminates_witness :
    ∃ N, ∀ fuel, N ≤ fuel →
      ∃ y, collison_point fuel (7 : Nat) (fun v => (v + 1) % 5) (fun _ => true) = some y :=
  collison_point_terminates (7 : Nat) (fun v => (v + 1) % 5) (fun _ => true)
    (Or.inr ⟨1, 6, by decide, by decide⟩)

/-- C3: when `p` holds at every point of the orbit of `x` and the orbit is eventually
periodic, `collison_point(x, f, p)` returns (from some fuel on), and every value `y` it
returns lies on the cycle: `y = f^[n] x` for some `n`, `f^[c] y = y` for some `c ≥ 1`, and
`p y` is true. -/
theorem collison_point_on_cycle (x : D) (f : D → D) (p : D → Bool)
    (hp : ∀ k, p (f^[k] x) = true) (hper : ∃ i j, i < j ∧ f^[i] x = f^[j] x) :
    (∃ N, ∀ fuel, N ≤ fuel → ∃ y, collison_point fuel x f p = some y) ∧
    (∀ fuel y, collison_point fuel x f p = some y →
        (∃ n, y = f^[n] x) ∧ (∃ c, 1 ≤ c ∧ f^[c] y = y) ∧ p y = true) := by
  constructor
  · obtain ⟨N, hN⟩ := collison_point_exit_isSome x f p (Or.inr hper)
    exact ⟨N, fun fuel hf =>
      Option.isSome_iff_exists.mp (collison_point_isSome_of_exit fuel x f p (hN fuel hf))⟩
  · intro fuel y hy
    obtain ⟨b, hb⟩ := collison_point_exit_of_some fuel x f p y hy
    rcases collison_point_exit_sound fuel x f p y b hb with ⟨_, m, e, hm, _⟩ | ⟨_, k, hk, _, _⟩
    · refine ⟨⟨m, e⟩, ⟨m + 1, by omega, ?_⟩, ?_⟩
      · rw [e, ← Function.iterate_add_apply, show m + 1 + m = 2 * m + 1 by omega, hm]
      · rw [e]; exact hp m
    · rw [hp k] at hk
      exact absurd hk (by simp)

/-- C3 on the rotation `v ↦ (v + 1) % 5` started at `7`: the value returned with fuel 4 is
`1`, a point of the cycle `0 → 1 → 2 → 3 → 4 → 0`. -/
theorem collison_point_on_cycle_witness :
    collison_point 4 (7 : Nat) (fun v => (v + 1) % 5) (fun _ => true) = some 1 ∧
      (∃ n, 1 = (fun v => (v + 1) % 5)^[n] 7) ∧
      (∃ c, 1 ≤ c ∧ (fun v => (v + 1) % 5)^[c] 1 = 1) := by
  have e : collison_point 4 (7 : Nat) (fun v => (v + 1) % 5) (fun _ => true) = some 1 := by
    decide
  have h := (collison_point_on_cycle (7 : Nat) (fun v => (v + 1) % 5) (fun _ => true)
    (fun _ => rfl) ⟨1, 6, by decide, by decide⟩).2 4 1 e
  exact ⟨e, h.1, h.2.1⟩

/-- C4: on an orbit that leaves the `p`-region or is eventually periodic,
`terminating_orbit(x, f, p)` returns (from some fuel on), and whenever it returns, its value
is true if and only if some `k` has `p (f^[k] x)` false; when the search ends because slow met
fast, the returned point satisfies `p` and `terminating_orbit` is false. -/
theorem terminating_orbit_iff_leaves (x : D) (f : D → D) (p : D → Bool)
    (h : (∃ k, p (f^[k] x) = false) ∨ (∃ i j, i < j ∧ f^[i] x = f^[j] x)) :
    (∃ N, ∀ fuel, N ≤ fuel → ∃ b, terminating_orbit fuel x f p = some b) ∧
    (∀ fuel b, terminating_orbit fuel x f p = some b →
        (b = true ↔ ∃ k, p (f^[k] x) = false)) ∧
    (∀ fuel y, collison_point_exit fuel x f p = some (y, true) →
        p y = true ∧ terminating_orbit fuel x f p = some false) := by
  refine ⟨?_, ?_, ?_⟩
  · obtain ⟨N, hN⟩ := collison_point_exit_isSome x f p h
    refine ⟨N, fun fuel hf => ?_⟩
    obtain ⟨y, hy⟩ :=
      Option.isSome_iff_exists.mp (collison_point_isSome_of_exit fuel x f p (hN fuel hf))
    exact ⟨!p y, by simp [terminating_orbit, hy]⟩
  · intro fuel b hb
    unfold terminating_orbit at hb
    cases hc : collison_point fuel x f p with
    | none => rw [hc] at hb; exact absurd hb (by simp)
    | some y =>
      rw [hc, Option.map_some', Option.some.injEq] at hb
      obtain ⟨e, he⟩ := collison_point_exit_of_some fuel x f p y hc
      rcases collison_point_exit_sound fuel x f p y e he with ⟨_, m, ey, hm, hp⟩ | ⟨_, k, hk, _, ey⟩
      · have hall := orbit_all_of_prefix f p x m hm hp
        have hy : p y = true := by rw [ey]; exact hall m
        constructor
        · intro hbt
          rw [hy, hbt] at hb
          exact absurd hb (by simp)
        · rintro ⟨k, hk⟩
          rw [hall k] at hk
          exact absurd hk (by simp)
      · have hy : p y = false := by rw [ey]; exact hk
        constructor
        · intro _; exact ⟨k, hk⟩
        · intro _; rw [← hb, hy]; rfl
  · intro fuel y hy
    have hc : collison_point fuel x f p = some y := by
      rw [← collison_point_exit_fst, hy]; rfl
    rcases collison_point_exit_sound fuel x f p y true hy with ⟨_, m, ey, hm, hp⟩ | ⟨hb, _⟩
    · have hpy : p y = true := by rw [ey]; exact hp m (by omega)
      exact ⟨hpy, by simp [terminating_orbit, hc, hpy]⟩
    · exact absurd hb (by simp)

set_option maxRecDepth 100000 in
/-- C4 at the values of `eop_examples`: the orbit of `0x7FFFFFFF - 133` under `v ↦ v + 1`
leaves the region where `v + 1` fits signed 32 bits, and `terminating_orbit` is true. -/
theorem terminating_orbit_iff_leaves_witness :
    terminating_orbit 67 eop_x eop_successor defspace = some true ∧
      ∃ k, defspace (eop_successor^[k] eop_x) = false := by
  have e : terminating_orbit 67 eop_x eop_successor defspace = some true := by decide
  have h := terminating_orbit_iff_leaves eop_x eop_successor defspace
    (Or.inl ⟨133, by decide⟩)
  exact ⟨e, (h.2.1 67 true e).1 rfl⟩

/-- C5: on an orbit that leaves the `p`-region or is eventually periodic,
`circular_orbit(x, f, p)` returns (from some fuel on), and whenever it returns, its value is
true if and only if the orbit is a pure cycle through `x` inside the `p`-region:
`f^[c] x = x` for some `c ≥ 1` and `p (f^[k] x)` is true for every `k`. -/
theorem circular_orbit_iff_pure_cycle (x : D) (f : D → D) (p : D → Bool)
    (h : (∃ k, p (f^[k] x) = false) ∨ (∃ i j, i < j ∧ f^[i] x = f^[j] x)) :
    (∃ N, ∀ fuel, N ≤ fuel → ∃ b, circular_orbit fuel x f p = some b) ∧
    (∀ fuel b, circular_orbit fuel x f p = some b →
        (b = true ↔ (∃ c, 1 ≤ c ∧ f^[c] x = x) ∧ ∀ k, p (f^[k] x) = true)) := by
  refine ⟨?_, ?_⟩
  · obtain ⟨N, hN⟩ := collison_point_exit_isSome x f p h
    refine ⟨N, fun fuel hf => ?_⟩
    obtain ⟨y, hy⟩ :=
      Option.isSome_iff_exists.mp (collison_point_isSome_of_exit fuel x f p (hN fuel hf))
    exact ⟨p y && decide (x = f y), by simp [circular_orbit, hy]⟩
  · intro fuel b hb
    unfold circular_orbit at hb
    cases hc : collison_point fuel x f p with
    | none => rw [hc] at hb; exact absurd hb (by simp)
    | some y =>
      rw [hc, Option.map_some', Option.some.injEq] at hb
      obtain ⟨e, he⟩ := collison_point_exit_of_some fuel x f p y hc
      rcases collison_point_exit_sound fuel x f p y e he with ⟨_, m, ey, hm, hp⟩ | ⟨_, k, hk, _, ey⟩
      · have hall := orbit_all_of_prefix f p x m hm hp
        have hy : p y = true := by rw [ey]; exact hall m
        have hfy : f y = f^[m + 1] x := by rw [ey, Function.iterate_succ_apply']
        rw [hy, Bool.true_and, hfy] at hb
        constructor
        · intro hbt
          rw [hbt] at hb
          have hx : x = f^[m + 1] x := of_decide_eq_true hb
          exact ⟨⟨m + 1, by omega, hx.symm⟩, hall⟩
        · rintro ⟨⟨c, hc1, hcx⟩, _⟩
          have hx := cycle_cancel f x c m hcx hc1 hm
          rw [← hb]
          exact decide_eq_true hx.symm
      · have hy : p y = false := by rw [ey]; exact hk
        rw [hy, Bool.false_and] at hb
        constructor
        · intro hbt
          rw [hbt] at hb
          exact absurd hb (by simp)
        · rintro ⟨_, hall⟩
          rw [hall k] at hk
          exact absurd hk (by simp)

set_option maxRecDepth 100000 in
/-- C5 at the values of `eop_examples`: the orbit of `0x7FFFFFFF - 133` under `v ↦ v + 1`
with `p(v)` = "`v + 1` fits signed 32 bits" is not a pure cycle inside the `p`-region, and
`circular_orbit` is false. -/
theorem circular_orbit_iff_pure_cycle_witness :
    circular_orbit 67 eop_x eop_successor defspace = some false ∧
      ¬ ((∃ c, 1 ≤ c ∧ eop_successor^[c] eop_x = eop_x) ∧
        ∀ k, defspace (eop_successor^[k] eop_x) = true) := by
  have e : circular_orbit 67 eop_x eop_successor defspace = some false := by decide
  have h := circular_orbit_iff_pure_cycle eop_x eop_successor defspace
    (Or.inl ⟨133, by decide⟩)
  refine ⟨e, fun hc => ?_⟩
  exact absurd ((h.2 67 false e).2 hc) (by simp)

end OrbitTheorems

/-! ## Theorems: folds -/

section ReduceTheorems

variable {D : Type}

/-- C6: on a non-empty sequence `a0, a1, ..., an`, `reduce_nonempty` returns the
left-associated fold `op(...op(op(a0, a1), a2)..., an)`: the accumulator starts as `a0` and
`op` is called once per later element `e`, as `op(accumulator, e)`, in sequence order; on a
one-element sequence it returns `a0` and makes no call of `op`. -/
theorem reduce_nonempty_left_fold (a0 : D) (rest : List D) (op : D → D → D) :
    reduce_nonempty (a0 :: rest) op = some (List.foldl op a0 rest) ∧
    reduce_nonempty_calls (a0 :: rest) op = (List.scanl op a0 rest).zip rest ∧
    reduce_nonempty [a0] op = some a0 ∧ reduce_nonempty_calls [a0] op = [] := by
  refine ⟨?_, ?_, rfl, rfl⟩
  · simp [reduce_nonempty, reduce_nonempty_loop_eq_foldl]
  · simp [reduce_nonempty_calls, reduce_nonempty_loop_calls_eq]

/-- C7: on the empty sequence (`first == last`), `reduce` returns exactly `z` and makes no
call of `op`, for every `op` and `z`. -/
theorem reduce_empty (op : D → D → D) (z : D) :
    reduce [] op z = some z ∧ reduce_calls [] op z = [] :=
  ⟨rfl, rfl⟩

/-- C8: for a left identity `z` of `op` and a non-empty sequence `s`, `reduce_nonempty(s, op)`
and `reduce(s, op, z)` both equal the standard left fold of `s` started from `z`; and on a
non-empty `s` the result of `reduce` is the same for every `z`. -/
theorem reduce_eq_std_accumulate (op : D → D → D) (z : D) (hz : ∀ a, op z a = a)
    (s : List D) (hs : s ≠ []) :
    reduce_nonempty s op = some (std_accumulate s z op) ∧
    reduce s op z = some (std_accumulate s z op) ∧
    ∀ z1 z2, reduce s op z1 = reduce s op z2 := by
  cases s with
  | nil => exact absurd rfl hs
  | cons a rest =>
    have e : reduce_nonempty (a :: rest) op = some (std_accumulate (a :: rest) z op) := by
      simp [reduce_nonempty, reduce_nonempty_loop_eq_foldl, std_accumulate,
        std_accumulate_eq_foldl, hz]
    exact ⟨e, e, fun _ _ => rfl⟩

/-- C8 at exact rational addition with `z = 0` and a sequence of 1024 values spread over
`[0.13, 199.17]`. -/
theorem reduce_eq_std_accumulate_witness :
    eop_sample.length = 1024 ∧
    reduce_nonempty eop_sample (· + ·) = some (std_accumulate eop_sample 0 (· + ·)) ∧
    reduce eop_sample (· + ·) 0 = some (std_accumulate eop_sample 0 (· + ·)) :=
  have hlen : eop_sample.length = 1024 := by simp [eop_sample]
  have h := reduce_eq_std_accumulate (· + ·) (0 : ℚ) (fun a => zero_add a) eop_sample
    (List.ne_nil_of_length_pos (by rw [hlen]; decide))
  ⟨hlen, h.1, h.2.1⟩

end ReduceTheorems

/-! ## Theorems: the safe-addition check -/

/-- C9: for a signed width `w` and `lhs`, `rhs` in `[-2^(w-1), 2^(w-1) - 1]`,
`definition_space_addition_runtime(lhs, rhs)` is true if and only if the mathematical sum
`lhs + rhs` lies in `[-2^(w-1), 2^(w-1) - 1]`, and false exactly when the sum is outside. -/
theorem definition_space_addition_runtime_iff (w : Nat) (hw : 0 < w) (lhs rhs : Int)
    (hl : numeric_limits_min w ≤ lhs ∧ lhs ≤ numeric_limits_max w)
    (hr : numeric_limits_min w ≤ rhs ∧ rhs ≤ numeric_limits_max w) :
    (definition_space_addition_runtime w lhs rhs = true ↔
        numeric_limits_min w ≤ lhs + rhs ∧ lhs + rhs ≤ numeric_limits_max w) ∧
    (definition_space_addition_runtime w lhs rhs = false ↔
        lhs + rhs < numeric_limits_min w ∨ numeric_limits_max w < lhs + rhs) := by
  have hmm : numeric_limits_min w = -(numeric_limits_max w) - 1 := by
    unfold numeric_limits_min numeric_limits_max; ring
  have hmax : 0 ≤ numeric_limits_max w := by
    have : (0 : Int) < 2 ^ (w - 1) := by positivity
    unfold numeric_limits_max; omega
  have key : definition_space_addition_runtime w lhs rhs = true ↔
      numeric_limits_min w ≤ lhs + rhs ∧ lhs + rhs ≤ numeric_limits_max w := by
    unfold definition_space_addition_runtime
    rcases lt_trichotomy rhs 0 with hneg | hzero | hpos
    · have e := wrap_eq_self w hw (numeric_limits_min w - rhs) (by omega) (by omega)
      have hn : ¬ rhs > 0 := by omega
      simp only [hn, decide_False, Bool.false_and, Bool.false_or, hneg, decide_True,
        Bool.true_and, e]
      by_cases hc : lhs < numeric_limits_min w - rhs
      · simp only [hc, decide_True, if_true]
        constructor
        · intro h; exact absurd h (by simp)
        · intro h; omega
      · simp only [hc, decide_False, Bool.false_eq_true, if_false, true_iff]
        omega
    · subst hzero
      simp only [gt_iff_lt, lt_self_iff_false, decide_False, Bool.false_and, Bool.or_self,
        Bool.false_eq_true, if_false, add_zero, true_iff]
      exact hl
    · have e := wrap_eq_self w hw (numeric_limits_max w - rhs) (by omega) (by omega)
      have hn : ¬ rhs < 0 := by omega
      simp only [hn, decide_False, Bool.false_and, Bool.or_false, gt_iff_lt, hpos, decide_True,
        Bool.true_and, e]
      by_cases hc : numeric_limits_max w - rhs < lhs
      · simp only [hc, decide_True, if_true]
        constructor
        · intro h; exact absurd h (by simp)
        · intro h; omega
      · simp only [hc, decide_False, Bool.false_eq_true, if_false, true_iff]
        omega
  refine ⟨key, ?_⟩
  rw [← Bool.not_eq_true, key]
  omega

/-- C9 at 32 bits: `0x7FFFFFFF + 1` overflows and the check is false; `5 + (-7)` does not and
the check is true. -/
theorem definition_space_addition_runtime_iff_witness :
    definition_space_addition_runtime 32 0x7FFFFFFF 1 = false ∧
      (numeric_limits_max 32 < 0x7FFFFFFF + 1) ∧
      definition_space_addition_runtime 32 5 (-7) = true := by
  have h1 := definition_space_addition_runtime_iff 32 (by decide) 0x7FFFFFFF 1
    (by decide) (by decide)
  have h2 := definition_space_addition_runtime_iff 32 (by decide) 5 (-7)
    (by decide) (by decide)
  exact ⟨h1.2.2 (Or.inr (by decide)), by decide, h2.1.2 (by decide)⟩

/-! ## Theorems: callable classification -/

/-- C10: a closure or function object `F` whose call operator, const or not, has the signature
`R(A0, ..., An-1)` is classified like the free function `R(A0, ..., An-1)` and like a pointer to
it: all three have arity `n` (for the closure: the arity `n + 1` of the call operator's
normalised signature, minus one), return type `R`, and for every `k < n` parameter `k` of the
closure is parameter `k + 1` of the call operator's normalised signature, which is `Ak`. -/
theorem closure_classified_as_function (env : String → Option CallOperator) (F : String)
    (op : CallOperator) (hop : env F = some op) (hlen : op.Args.length + 1 < 2 ^ 64) :
    ∃ tc tf tp call,
      function_traits env (FType.cls F) = some tc ∧
      function_traits env (FType.func op.R op.Args) = some tf ∧
      function_traits env (FType.func_ptr op.R op.Args) = some tp ∧
      function_traits env op.toFType = some call ∧
      call.arity = op.Args.length + 1 ∧ tc.arity = size_t_sub call.arity 1 ∧
      tc.arity = op.Args.length ∧ tf.arity = op.Args.length ∧ tp.arity = op.Args.length ∧
      tc.return_type = op.R ∧ tf.return_type = op.R ∧ tp.return_type = op.R ∧
      ∀ k (hk : k < op.Args.length),
        tc.arg k = call.arg (k + 1) ∧ tc.arg k = some op.Args[k] ∧
        tf.arg k = some op.Args[k] ∧ tp.arg k = some op.Args[k] := by
  have hsub : size_t_sub (op.Args.length + 1) 1 = op.Args.length := by
    unfold size_t_sub
    rw [Nat.mod_eq_of_lt (show 1 < 2 ^ 64 by decide),
      show op.Args.length + 1 + 2 ^ 64 - 1 = op.Args.length + 2 ^ 64 by omega,
      Nat.add_mod_right, Nat.mod_eq_of_lt (by omega)]
  have hcall : function_traits env op.toFType
      = some (function_traits_func op.R (CppType.lref op.C :: op.Args)) := by
    unfold CallOperator.toFType
    cases op.is_const <;> simp [function_traits]
  refine ⟨function_traits_primary (function_traits_func op.R (CppType.lref op.C :: op.Args)),
    function_traits_func op.R op.Args, function_traits_func op.R op.Args,
    function_traits_func op.R (CppType.lref op.C :: op.Args),
    by simp [function_traits, hop], rfl, rfl, hcall, rfl, rfl, ?_, rfl, rfl, rfl, rfl, rfl, ?_⟩
  · simpa [function_traits_primary, function_traits_func] using hsub
  · intro k hk
    have hadd : size_t_add k 1 = k + 1 := by
      unfold size_t_add
      exact Nat.mod_eq_of_lt (by omega)
    have hfree : (function_traits_func op.R op.Args).arg k = some op.Args[k] := by
      simp [function_traits_func, hk]
    have hshift : (function_traits_func op.R (CppType.lref op.C :: op.Args)).arg (k + 1)
        = some op.Args[k] := by
      simp [function_traits_func, hk]
    have hclos : (function_traits_primary
        (function_traits_func op.R (CppType.lref op.C :: op.Args))).arg k
        = (function_traits_func op.R (CppType.lref op.C :: op.Args)).arg (k + 1) := by
      have harity : (function_traits_func op.R (CppType.lref op.C :: op.Args)).arity
          = op.Args.length + 1 := rfl
      simp only [function_traits_primary, harity, hsub, hk, if_true, hadd]
    exact ⟨hclos, hclos.trans hshift, hfree, hfree⟩

/-- C10 at the lambda `op` of `eop_examples`, `float(float, float)` behind a const call
operator: the closure has arity 2, return type `float` and parameters `float`, `float`, as
the free function `float(float, float)` has. -/
theorem closure_classified_as_function_witness :
    ∃ tc tf, function_traits eop_env (FType.cls "op") = some tc ∧
      function_traits eop_env
        (FType.func (CppType.named "float") [CppType.named "float", CppType.named "float"])
          = some tf ∧
      tc.arity = 2 ∧ tf.arity = 2 ∧
      tc.return_type = CppType.named "float" ∧ tf.return_type = CppType.named "float" ∧
      tc.arg 0 = some (CppType.named "float") ∧ tf.arg 0 = some (CppType.named "float") ∧
      tc.arg 1 = some (CppType.named "float") ∧ tf.arg 1 = some (CppType.named "float") := by
  obtain ⟨tc, tf, _, _, h1, h2, _, _, _, _, h3, h4, _, h5, h6, _, h7⟩ :=
    closure_classified_as_function eop_env "op"
      ⟨CppType.named "op", CppType.named "float",
        [CppType.named "float", CppType.named "float"], true⟩
      (by simp [eop_env]) (by simp)
  have a0 := h7 0 (by simp)
  have a1 := h7 1 (by simp)
  exact ⟨tc, tf, h1, h2, h3, h4, h5, h6, a0.2.1, a0.2.2.1, a1.2.1, a1.2.2.1⟩

/-- C11: for every class `C`, return type `R` and parameter list `A0, ..., An-1`, a pointer to
a non-const member function and a pointer to a const member function of `C` with that
signature both get the traits of the free function `R(C&, A0, ..., An-1)`: arity `n + 1`,
parameter 0 is `C&`, parameter `k + 1` is `Ak`; and a pointer to a data member of type `R` on
`C` gets the traits of `R(C&)`: arity exactly 1, parameter 0 is `C&`, return type `R`. -/
theorem member_pointer_signature (env : String → Option CallOperator) (C R : CppType)
    (Args : List CppType) :
    ∃ tm td,
      function_traits env (FType.mem_func C R Args) = some tm ∧
      function_traits env (FType.mem_func_const C R Args) = some tm ∧
      function_traits env (FType.func R (CppType.lref C :: Args)) = some tm ∧
      tm.arity = Args.length + 1 ∧ tm.return_type = R ∧ tm.arg 0 = some (CppType.lref C) ∧
      (∀ k (hk : k < Args.length), tm.arg (k + 1) = some Args[k]) ∧
      function_traits env (FType.mem_obj C R) = some td ∧
      function_traits env (FType.func R [CppType.lref C]) = some td ∧
      td.arity = 1 ∧ td.return_type = R ∧ td.arg 0 = some (CppType.lref C) := by
  refine ⟨function_traits_func R (CppType.lref C :: Args),
    function_traits_func R [CppType.lref C], rfl, rfl, rfl, rfl, rfl, ?_, ?_, rfl, rfl, rfl,
    rfl, ?_⟩
  · simp [function_traits_func]
  · intro k hk
    rw [function_traits_func_arg]
    simp [hk]
  · simp [function_traits_func]

/-- C11 at the call operator of `struct defspace` (test.cc:125-127), whose address has the
type `bool (defspace::*)(int)`: arity 2, parameters `defspace&` and `int`. -/
theorem member_pointer_signature_witness :
    ∃ tm, function_traits eop_env
        (FType.mem_func (CppType.named "defspace") (CppType.named "bool")
          [CppType.named "int"]) = some tm ∧
      tm.arity = 2 ∧ tm.return_type = CppType.named "bool" ∧
      tm.arg 0 = some (CppType.lref (CppType.named "defspace")) ∧
      tm.arg 1 = some (CppType.named "int") := by
  obtain ⟨tm, _, h1, _, _, h2, h3, h4, h5, _⟩ :=
    member_pointer_signature eop_env (CppType.named "defspace") (CppType.named "bool")
      [CppType.named "int"]
  exact ⟨tm, h1, h2, h3, h4, h5 0 (by simp)⟩

/-- C12: for every callable shape that `function_traits` accepts and every index `N`, the
parameter-type query `arg<N>` succeeds if and only if `N < arity` (the visible arity for
closures) and is rejected for every `N ≥ arity`; when it succeeds it yields parameter `N` of
the normalised signature, which has `arity` parameters. -/
theorem arg_succeeds_iff_below_arity (env : String → Option CallOperator)
    (hsize : ∀ name op, env name = some op → op.Args.length + 1 < 2 ^ 64)
    (F : FType) (t : Traits) (ht : function_traits env F = some t) (N : Nat) :
    ((∃ T, t.arg N = some T) ↔ N < t.arity) ∧
    (t.arity ≤ N → t.arg N = none) ∧
    ∃ sig, spec_signature env F = some sig ∧ sig.2.length = t.arity ∧
      ∀ (hN : N < sig.2.length), t.arg N = some sig.2[N] := by
  obtain ⟨sig, hsig, _, harity, harg⟩ := function_traits_eq_spec env hsize F t ht
  refine ⟨?_, ?_, sig, hsig, harity.symm, ?_⟩
  · rw [harg N, harity]
    constructor
    · rintro ⟨T, hT⟩
      by_contra hlt
      rw [List.getElem?_eq_none (Nat.le_of_not_lt hlt)] at hT
      exact absurd hT (by simp)
    · intro hlt
      exact ⟨sig.2[N], List.getElem?_eq_getElem hlt⟩
  · intro hle
    rw [harg N, List.getElem?_eq_none (by omega)]
  · intro hN
    rw [harg N, List.getElem?_eq_getElem hN]

/-- C12 at the closure `op` of `eop_examples`, of visible arity 2: `arg<1>` is `float`, and
`arg<2>` is rejected. -/
theorem arg_succeeds_iff_below_arity_witness :
    ∃ t, function_traits eop_env (FType.cls "op") = some t ∧ t.arity = 2 ∧
      t.arg 1 = some (CppType.named "float") ∧ t.arg 2 = none := by
  have hsize : ∀ name op, eop_env name = some op → op.Args.length + 1 < 2 ^ 64 := by
    intro name op h
    unfold eop_env at h
    by_cases hn : name = "op"
    · rw [if_pos hn, Option.some.injEq] at h
      subst h
      simp
    · rw [if_neg hn] at h
      exact absurd h (by simp)
  have ht : function_traits eop_env (FType.cls "op")
      = some (function_traits_primary (function_traits_func (CppType.named "float")
          [CppType.lref (CppType.named "op"), CppType.named "float",
            CppType.named "float"])) := by
    simp [function_traits, eop_env]
  have h1 := arg_succeeds_iff_below_arity eop_env hsize (FType.cls "op") _ ht 1
  have h2 := arg_succeeds_iff_below_arity eop_env hsize (FType.cls "op") _ ht 2
  have harity : (function_traits_primary (function_traits_func (CppType.named "float")
      [CppType.lref (CppType.named "op"), CppType.named "float",
        CppType.named "float"])).arity = 2 := by decide
  refine ⟨_, ht, harity, ?_, h2.2.1 (by rw [harity])⟩
  obtain ⟨sig, hsig, hlen, hget⟩ := h1.2.2
  have hs : sig = (CppType.named "float", [CppType.named "float", CppType.named "float"]) := by
    simp [spec_signature, eop_env] at hsig
    exact hsig.symm
  subst hs
  exact hget (by simp)

/-- C13: for a callable of arity `n ≥ 1`, `is_homogeneous` has a value, computed by the
recursion over the adjacent pairs `(k, k + 1)` of parameters below index `n - 1`; it is true
if and only if the const/reference-stripped types of all adjacent pairs are equal, and that
is so if and only if the stripped types of every pair of parameters `i, j < n` are equal. -/
theorem is_homogeneous_iff_all_pairs (env : String → Option CallOperator)
    (hsize : ∀ name op, env name = some op → op.Args.length + 1 < 2 ^ 64)
    (F : FType) (t : Traits) (ht : function_traits env F = some t)
    (hn : 1 ≤ t.arity) (hfit : t.arity < 2 ^ 64) :
    ∃ b, is_homogeneous env F = some b ∧
      (b = true ↔ ∀ k, k + 1 < t.arity → ∃ a c, t.arg k = some a ∧ t.arg (k + 1) = some c ∧
        remove_cvr a = remove_cvr c) ∧
      (b = true ↔ ∀ i j, i < t.arity → j < t.arity → ∃ a c, t.arg i = some a ∧
        t.arg j = some c ∧ remove_cvr a = remove_cvr c) := by
  obtain ⟨sig, _, _, harity, harg⟩ := function_traits_eq_spec env hsize F t ht
  obtain ⟨n, hn1⟩ : ∃ n, t.arity = n + 1 := ⟨t.arity - 1, by omega⟩
  have hsome : ∀ k, k ≤ n → ∃ T, t.arg k = some T := by
    intro k hk
    have hlt : k < sig.2.length := by omega
    exact ⟨sig.2[k], by rw [harg k]; exact List.getElem?_eq_getElem hlt⟩
  obtain ⟨b, hb, hadj⟩ := is_homogeneous_helper_adjacent t.arg n hsome
  have hidx : size_t_sub t.arity 1 = n := by
    rw [hn1]; exact size_t_sub_succ_one n (by omega)
  have hval : is_homogeneous env F = some b := by
    simp only [is_homogeneous, ht, hidx, hb]
  have hpair : ∀ i j, i ≤ n → j ≤ n →
      ((t.arg i).map remove_cvr = (t.arg j).map remove_cvr ↔
        ∃ a c, t.arg i = some a ∧ t.arg j = some c ∧ remove_cvr a = remove_cvr c) := by
    intro i j hi hj
    obtain ⟨a, ha⟩ := hsome i hi
    obtain ⟨c, hc⟩ := hsome j hj
    rw [ha, hc, Option.map_some', Option.map_some', Option.some.injEq]
    constructor
    · intro h; exact ⟨a, c, rfl, rfl, h⟩
    · rintro ⟨a', c', h1, h2, h3⟩
      rw [Option.some.injEq] at h1 h2
      rw [h1, h2]; exact h3
  refine ⟨b, hval, ?_, ?_⟩
  · rw [hadj]
    constructor
    · intro h k hk
      exact (hpair k (k + 1) (by omega) (by omega)).1 (h k (by omega))
    · intro h k hk
      exact (hpair k (k + 1) (by omega) (by omega)).2 (h k (by omega))
  · rw [hadj, adjacent_eq_iff_all_eq (fun k => (t.arg k).map remove_cvr) n]
    constructor
    · intro h i j hi hj
      exact (hpair i j (by omega) (by omega)).1 (h i j (by omega) (by omega))
    · intro h i j hi hj
      exact (hpair i j hi hj).2 (h i j (by omega) (by omega))

/-- C13 at `float(float, const float&, const float)`: the three stripped parameter types are
`float`, and `is_homogeneous` is true. -/
theorem is_homogeneous_iff_all_pairs_witness :
    is_homogeneous eop_env
      (FType.func (CppType.named "float")
        [CppType.named "float", CppType.lref (CppType.const (CppType.named "float")),
          CppType.const (CppType.named "float")]) = some true := by
  have hsize : ∀ name op, eop_env name = some op → op.Args.length + 1 < 2 ^ 64 := by
    intro name op h
    unfold eop_env at h
    by_cases hn : name = "op"
    · rw [if_pos hn, Option.some.injEq] at h
      subst h
      simp
    · rw [if_neg hn] at h
      exact absurd h (by simp)
  obtain ⟨b, hb, _, _⟩ := is_homogeneous_iff_all_pairs eop_env hsize
    (FType.func (CppType.named "float")
      [CppType.named "float", CppType.lref (CppType.const (CppType.named "float")),
        CppType.const (CppType.named "float")]) _ rfl (by decide) (by decide)
  rw [hb]
  have e : is_homogeneous eop_env
      (FType.func (CppType.named "float")
        [CppType.named "float", CppType.lref (CppType.const (CppType.named "float")),
          CppType.const (CppType.named "float")]) = some true := by decide
  rw [hb] at e
  exact e

/-- C14, as amended: for every callable of arity 1, `is_homogeneous` evaluates to true, the
helper being instantiated at index `1 - 1 = 0`, its base case. For a callable of arity 0 the
index `arity - 1`, computed in `std::size_t`, is `2 ^ 64 - 1`, the recursive case of the helper
names the rejected parameter query `arg<2 ^ 64 - 2>`, and `is_homogeneous` has no value. -/
theorem is_homogeneous_arity_one (env : String → Option CallOperator) (F : FType)
    (t : Traits) (ht : function_traits env F = some t) :
    (t.arity = 1 → size_t_sub t.arity 1 = 0 ∧ is_homogeneous env F = some true) ∧
    (t.arity = 0 → size_t_sub t.arity 1 = 2 ^ 64 - 1 ∧ t.arg (2 ^ 64 - 2) = none ∧
      is_homogeneous env F = none) := by
  constructor
  · intro h1
    have hidx : size_t_sub t.arity 1 = 0 := by rw [h1]; decide
    refine ⟨hidx, ?_⟩
    rw [is_homogeneous_of_traits env F t ht, hidx]
    rfl
  · intro h0
    have hidx : size_t_sub t.arity 1 = (2 ^ 64 - 2) + 1 := by rw [h0]; decide
    have hnone : t.arg (2 ^ 64 - 2) = none :=
      function_traits_arg_none env F t ht _ (by rw [h0]; exact Nat.zero_le _)
    refine ⟨hidx.trans (by decide), hnone, ?_⟩
    rw [is_homogeneous_of_traits env F t ht, hidx]
    exact is_homogeneous_helper_none t.arg _ hnone

/-- C14 amended, at the unary `bool(int)` (true) and at the nullary `void()` (no value). -/
theorem is_homogeneous_arity_one_witness :
    is_homogeneous eop_env (FType.func (CppType.named "bool") [CppType.named "int"])
      = some true ∧
    is_homogeneous eop_env (FType.func (CppType.named "void") []) = none :=
  ⟨((is_homogeneous_arity_one eop_env
      (FType.func (CppType.named "bool") [CppType.named "int"]) _ rfl).1 rfl).2,
   ((is_homogeneous_arity_one eop_env
      (FType.func (CppType.named "void") []) _ rfl).2 rfl).2.2⟩

/-- C14 as stated fails: the free function `void()` has arity 0, and `is_homogeneous` does not
evaluate to true for it; it has no value at all. -/
theorem is_homogeneous_arity_zero_counterexample :
    ∃ t, function_traits eop_env (FType.func (CppType.named "void") []) = some t ∧
      t.arity = 0 ∧
      is_homogeneous eop_env (FType.func (CppType.named "void") []) ≠ some true ∧
      is_homogeneous eop_env (FType.func (CppType.named "void") []) = none :=
  ⟨_, rfl, rfl, by decide, by decide⟩

/-- C15: `is_operation(op)` is true if and only if `is_homogeneous(op)` is true and the
const/reference-stripped return type of `op` equals the stripped type of its parameter 0;
`is_transformation(op)` is true if and only if that is so and the arity is exactly 1, and
`binary_operation(op)` if and only if that is so and the arity is exactly 2. -/
theorem is_operation_iff (env : String → Option CallOperator) (F : FType) :
    (is_operation env F = some true ↔
      is_homogeneous env F = some true ∧
        ∃ t a0, function_traits env F = some t ∧ t.arg 0 = some a0 ∧
          remove_cvr t.return_type = remove_cvr a0) ∧
    (is_transformation env F = some true ↔
      is_operation env F = some true ∧ ∃ t, function_traits env F = some t ∧ t.arity = 1) ∧
    (binary_operation env F = some true ↔
      is_operation env F = some true ∧ ∃ t, function_traits env F = some t ∧ t.arity = 2) := by
  refine ⟨?_, ?_, ?_⟩
  · constructor
    · intro h
      obtain ⟨t, a0, ht, ha⟩ := is_operation_some_true env F h
      rw [is_operation_of_traits env F t a0 ht ha, static_and_eq_true, Option.some.injEq,
        decide_eq_true_eq] at h
      exact ⟨h.2, t, a0, ht, ha, h.1⟩
    · rintro ⟨h2, t, a0, ht, ha, h1⟩
      rw [is_operation_of_traits env F t a0 ht ha, static_and_eq_true, Option.some.injEq,
        decide_eq_true_eq]
      exact ⟨h1, h2⟩
  · unfold is_transformation is_unary
    rw [static_and_eq_true]
    cases ht : function_traits env F with
    | none => simp
    | some t => simp
  · unfold binary_operation is_binary
    rw [static_and_eq_true]
    cases ht : function_traits env F with
    | none => simp
    | some t => simp

/-- C15 at the closure `op` of `eop_examples`, `float(float, float)`: an operation and a
binary operation, not a transformation. -/
theorem is_operation_iff_witness :
    is_operation eop_env (FType.cls "op") = some true ∧
      binary_operation eop_env (FType.cls "op") = some true ∧
      is_transformation eop_env (FType.cls "op") ≠ some true := by
  have h := is_operation_iff eop_env (FType.cls "op")
  have hop : is_operation eop_env (FType.cls "op") = some true := by decide
  have e : function_traits eop_env (FType.cls "op")
      = some (function_traits_primary (function_traits_func (CppType.named "float")
          [CppType.lref (CppType.named "op"), CppType.named "float",
            CppType.named "float"])) := by
    simp [function_traits, eop_env]
  refine ⟨hop, h.2.2.2 ⟨hop, _, e, by decide⟩, ?_⟩
  intro ht
  obtain ⟨_, t, h1, h2⟩ := h.2.1.1 ht
  rw [e, Option.some.injEq] at h1
  subst h1
  exact absurd h2 (by decide)

/-- C16: `is_relation(r)` is true if and only if `r` has arity exactly 2, its two
const/reference-stripped parameter types are equal, and its return type is exactly `bool`. -/
theorem is_relation_iff (env : String → Option CallOperator) (F : FType) :
    is_relation env F = some true ↔
      ∃ t a b, function_traits env F = some t ∧ t.arity = 2 ∧
        t.arg 0 = some a ∧ t.arg 1 = some b ∧ remove_cvr a = remove_cvr b ∧
        t.return_type = CppType.named "bool" := by
  unfold is_relation is_homogeneous_predicate is_predicate is_homogeneous
  rw [static_and_eq_true, static_and_eq_true]
  cases ht : function_traits env F with
  | none => simp
  | some t =>
    simp only [Option.map_some', Option.some.injEq, decide_eq_true_eq]
    constructor
    · rintro ⟨⟨hh, hp⟩, h2⟩
      have hidx : size_t_sub t.arity 1 = 0 + 1 := by rw [h2]; decide
      rw [hidx] at hh
      simp only [is_homogeneous_helper] at hh
      cases ha : t.arg 0 with
      | none => rw [ha] at hh; exact absurd hh (by simp)
      | some a =>
        cases hb : t.arg (0 + 1) with
        | none => rw [ha, hb] at hh; exact absurd hh (by simp)
        | some b =>
          rw [ha, hb] at hh
          simp only [Bool.and_true, Option.some.injEq, decide_eq_true_eq] at hh
          exact ⟨t, a, b, rfl, h2, ha, hb, hh, hp⟩
    · rintro ⟨t', a, b, h, h2, ha, hb, hab, hp⟩
      subst h
      have hidx : size_t_sub t.arity 1 = 0 + 1 := by rw [h2]; decide
      refine ⟨⟨?_, hp⟩, h2⟩
      rw [hidx]
      simp only [is_homogeneous_helper]
      rw [ha, hb]
      simp [hab]

/-- C16 at `bool(float, const float&)`, a relation, and at the closure `op` of
`eop_examples`, which returns `float` and is none. -/
theorem is_relation_iff_witness :
    is_relation eop_env
      (FType.func (CppType.named "bool")
        [CppType.named "float", CppType.lref (CppType.const (CppType.named "float"))])
        = some true ∧
    is_relation eop_env (FType.cls "op") = some false :=
  ⟨(is_relation_iff eop_env _).2
      ⟨function_traits_func (CppType.named "bool")
          [CppType.named "float", CppType.lref (CppType.const (CppType.named "float"))],
        CppType.named "float", CppType.lref (CppType.const (CppType.named "float")),
        rfl, rfl, by decide, by decide, by decide, rfl⟩,
    by decide⟩

/-! ## Theorems: orbit classification -/

section ClassificationTheorems

variable {D : Type} [DecidableEq D]

/-- C17, as amended: on an orbit that leaves the `p`-region or is eventually periodic,
`terminating_orbit` and `circular_orbit` both return (from some fuel on), and at least one of
them is true if and only if the orbit leaves the `p`-region or comes back to its start
(`f^[c] x = x` for some `c ≥ 1`); on an orbit inside the `p`-region whose cycle does not
contain `x`, both are false. -/
theorem orbit_classification_cover (x : D) (f : D → D) (p : D → Bool)
    (h : (∃ k, p (f^[k] x) = false) ∨ (∃ i j, i < j ∧ f^[i] x = f^[j] x)) :
    (∃ N, ∀ fuel, N ≤ fuel →
      ∃ bt bc, terminating_orbit fuel x f p = some bt ∧ circular_orbit fuel x f p = some bc) ∧
    (∀ fuel bt bc, terminating_orbit fuel x f p = some bt →
      circular_orbit fuel x f p = some bc →
        ((bt = true ∨ bc = true) ↔
          ((∃ k, p (f^[k] x) = false) ∨ ∃ c, 1 ≤ c ∧ f^[c] x = x))) := by
  constructor
  · obtain ⟨N, hN⟩ := collison_point_exit_isSome x f p h
    refine ⟨N, fun fuel hf => ?_⟩
    obtain ⟨y, hy⟩ :=
      Option.isSome_iff_exists.mp (collison_point_isSome_of_exit fuel x f p (hN fuel hf))
    exact ⟨!p y, p y && decide (x = f y), by simp [terminating_orbit, hy],
      by simp [circular_orbit, hy]⟩
  · intro fuel bt bc ht hc
    unfold terminating_orbit at ht
    unfold circular_orbit at hc
    cases hy : collison_point fuel x f p with
    | none => rw [hy] at ht; exact absurd ht (by simp)
    | some y =>
      rw [hy, Option.map_some', Option.some.injEq] at ht hc
      rcases collison_point_cases fuel x f p y hy with ⟨hpy, ⟨m, ey, hm⟩, hall⟩ | ⟨hpy, k, hk⟩
      · have hfy : f y = f^[m + 1] x := by rw [ey, Function.iterate_succ_apply']
        rw [hpy] at ht hc
        rw [Bool.true_and, hfy] at hc
        constructor
        · rintro (hbt | hbc)
          · rw [hbt] at ht; exact absurd ht (by simp)
          · rw [hbc] at hc
            have hx : x = f^[m + 1] x := of_decide_eq_true hc
            exact Or.inr ⟨m + 1, by omega, hx.symm⟩
        · rintro (⟨k, hk⟩ | ⟨c, hc1, hcx⟩)
          · rw [hall k] at hk; exact absurd hk (by simp)
          · have hx := cycle_cancel f x c m hcx hc1 hm
            right
            rw [← hc]
            exact decide_eq_true hx.symm
      · rw [hpy] at ht
        constructor
        · intro _; exact Or.inl ⟨k, hk⟩
        · intro _; left; rw [← ht]; rfl

set_option maxRecDepth 100000 in
/-- C17 amended, at the values of `eop_examples`: the orbit leaves the `p`-region, and
`terminating_orbit` is true. -/
theorem orbit_classification_cover_witness :
    terminating_orbit 67 eop_x eop_successor defspace = some true ∧
      circular_orbit 67 eop_x eop_successor defspace = some false ∧
      ((∃ k, defspace (eop_successor^[k] eop_x) = false) ∨
        ∃ c, 1 ≤ c ∧ eop_successor^[c] eop_x = eop_x) := by
  have ht : terminating_orbit 67 eop_x eop_successor defspace = some true := by decide
  have hc : circular_orbit 67 eop_x eop_successor defspace = some false := by decide
  have h := orbit_classification_cover eop_x eop_successor defspace (Or.inl ⟨133, by decide⟩)
  exact ⟨ht, hc, (h.2 67 true false ht hc).1 (Or.inl rfl)⟩

/-- C17 as stated fails: the orbit of `7` under `v ↦ (v + 1) % 5` with `p` always true is
eventually periodic (`f^[1] 7 = f^[6] 7`), the search returns, and both `terminating_orbit`
and `circular_orbit` are false; neither is true for any fuel. -/
theorem orbit_classification_cover_counterexample :
    (∃ i j, i < j ∧ (fun v : Nat => (v + 1) % 5)^[i] 7 = (fun v : Nat => (v + 1) % 5)^[j] 7) ∧
    terminating_orbit 4 (7 : Nat) (fun v => (v + 1) % 5) (fun _ => true) = some false ∧
    circular_orbit 4 (7 : Nat) (fun v => (v + 1) % 5) (fun _ => true) = some false ∧
    ∀ fuel, ¬ (terminating_orbit fuel (7 : Nat) (fun v => (v + 1) % 5) (fun _ => true)
          = some true ∨
        circular_orbit fuel (7 : Nat) (fun v => (v + 1) % 5) (fun _ => true) = some true) := by
  refine ⟨⟨1, 6, by decide, by decide⟩, by decide, by decide, ?_⟩
  intro fuel hor
  rcases hor with h | h
  · unfold terminating_orbit at h
    cases hy : collison_point fuel (7 : Nat) (fun v => (v + 1) % 5) (fun _ => true) with
    | none => rw [hy] at h; exact absurd h (by simp)
    | some y => rw [hy] at h; simp at h
  · unfold circular_orbit at h
    cases hy : collison_point fuel (7 : Nat) (fun v => (v + 1) % 5) (fun _ => true) with
    | none => rw [hy] at h; exact absurd h (by simp)
    | some y =>
      rw [hy] at h
      simp only [Option.map_some', Bool.true_and, Option.some.injEq, decide_eq_true_eq] at h
      omega

/-- C18: on an orbit that leaves the `p`-region or is eventually periodic,
`terminating_orbit` and `circular_orbit` both return (from some fuel on), and they are never
both true. -/
theorem orbit_classification_exclusive (x : D) (f : D → D) (p : D → Bool)
    (h : (∃ k, p (f^[k] x) = false) ∨ (∃ i j, i < j ∧ f^[i] x = f^[j] x)) :
    (∃ N, ∀ fuel, N ≤ fuel →
      ∃ bt bc, terminating_orbit fuel x f p = some bt ∧ circular_orbit fuel x f p = some bc ∧
        ¬ (bt = true ∧ bc = true)) ∧
    (∀ fuel, ¬ (terminating_orbit fuel x f p = some true ∧
      circular_orbit fuel x f p = some true)) := by
  have excl : ∀ fuel, ¬ (terminating_orbit fuel x f p = some true ∧
      circular_orbit fuel x f p = some true) := by
    rintro fuel ⟨ht, hc⟩
    unfold terminating_orbit at ht
    unfold circular_orbit at hc
    cases hy : collison_point fuel x f p with
    | none => rw [hy] at ht; exact absurd ht (by simp)
    | some y =>
      rw [hy, Option.map_some', Option.some.injEq] at ht hc
      cases hpy : p y with
      | false => rw [hpy] at hc; exact absurd hc (by simp)
      | true => rw [hpy] at ht; exact absurd ht (by simp)
  refine ⟨?_, excl⟩
  obtain ⟨N, hN⟩ := collison_point_exit_isSome x f p h
  refine ⟨N, fun fuel hf => ?_⟩
  obtain ⟨y, hy⟩ :=
    Option.isSome_iff_exists.mp (collison_point_isSome_of_exit fuel x f p (hN fuel hf))
  have ht : terminating_orbit fuel x f p = some (!p y) := by simp [terminating_orbit, hy]
  have hc : circular_orbit fuel x f p = some (p y && decide (x = f y)) := by
    simp [circular_orbit, hy]
  refine ⟨!p y, p y && decide (x = f y), ht, hc, ?_⟩
  rintro ⟨h1, h2⟩
  exact excl fuel ⟨by rw [ht, h1], by rw [hc, h2]⟩

/-- C18 on the pure cycle `0 → 1 → 2 → 3 → 4 → 0` started at `3`, with `p` always true:
`circular_orbit` is true and `terminating_orbit` is false. -/
theorem orbit_classification_exclusive_witness :
    circular_orbit 4 (3 : Nat) (fun v => (v + 1) % 5) (fun _ => true) = some true ∧
      terminating_orbit 4 (3 : Nat) (fun v => (v + 1) % 5) (fun _ => true) = some false ∧
      ¬ (terminating_orbit 4 (3 : Nat) (fun v => (v + 1) % 5) (fun _ => true) = some true ∧
        circular_orbit 4 (3 : Nat) (fun v => (v + 1) % 5) (fun _ => true) = some true) :=
  ⟨by decide, by decide,
    (orbit_classification_exclusive (3 : Nat) (fun v => (v + 1) % 5) (fun _ => true)
      (Or.inr ⟨0, 5, by decide, by decide⟩)).2 4⟩

end ClassificationTheorems

/-! ## Theorems: evaluation inside the definition space -/

/-- C19: for a signed width `w`, `rhs` in `[-2^(w-1), 2^(w-1) - 1]` and every `lhs` (in
particular every `lhs` of that range), every arithmetic operation that `definition_space_addition_runtime` evaluates is `max - rhs` with
`rhs > 0` or `min - rhs` with `rhs < 0`, its exact result lies in the `w`-bit signed range, no
addition (so not `lhs + rhs`) is evaluated, and the check in wrapping `w`-bit arithmetic gives
the result of the check over the unbounded integers. -/
theorem definition_space_addition_no_overflow (w : Nat) (hw : 0 < w) (lhs rhs : Int)
    (hr : numeric_limits_min w ≤ rhs ∧ rhs ≤ numeric_limits_max w) :
    (∀ o, o ∈ definition_space_addition_ops w lhs rhs →
      (o = ArithOp.sub (numeric_limits_max w) rhs ∧ rhs > 0) ∨
      (o = ArithOp.sub (numeric_limits_min w) rhs ∧ rhs < 0)) ∧
    (∀ o, o ∈ definition_space_addition_ops w lhs rhs →
      numeric_limits_min w ≤ o.exact ∧ o.exact ≤ numeric_limits_max w ∧
        wrap w o.exact = o.exact) ∧
    (∀ a b, ArithOp.add a b ∉ definition_space_addition_ops w lhs rhs) ∧
    definition_space_addition_runtime w lhs rhs = definition_space_addition_exact w lhs rhs := by
  have hmm : numeric_limits_min w = -(numeric_limits_max w) - 1 := by
    unfold numeric_limits_min numeric_limits_max; ring
  have hmax : 0 ≤ numeric_limits_max w := by
    have : (0 : Int) < 2 ^ (w - 1) := by positivity
    unfold numeric_limits_max; omega
  have hshape : ∀ o, o ∈ definition_space_addition_ops w lhs rhs →
      (o = ArithOp.sub (numeric_limits_max w) rhs ∧ rhs > 0) ∨
      (o = ArithOp.sub (numeric_limits_min w) rhs ∧ rhs < 0) := by
    intro o ho
    unfold definition_space_addition_ops at ho
    by_cases hpos : rhs > 0
    · have hn : ¬ rhs < 0 := by omega
      rw [if_pos hpos, if_neg hn] at ho
      by_cases hc : lhs > wrap w (numeric_limits_max w - rhs)
      · rw [if_pos hc, List.mem_singleton] at ho
        exact Or.inl ⟨ho, hpos⟩
      · rw [if_neg hc, List.mem_singleton] at ho
        exact Or.inl ⟨ho, hpos⟩
    · rw [if_neg hpos] at ho
      by_cases hneg : rhs < 0
      · rw [if_pos hneg, List.mem_singleton] at ho
        exact Or.inr ⟨ho, hneg⟩
      · rw [if_neg hneg] at ho
        exact absurd ho (List.not_mem_nil o)
  have hrange : ∀ o, o ∈ definition_space_addition_ops w lhs rhs →
      numeric_limits_min w ≤ o.exact ∧ o.exact ≤ numeric_limits_max w := by
    intro o ho
    rcases hshape o ho with ⟨rfl, hpos⟩ | ⟨rfl, hneg⟩
    · simp only [ArithOp.exact]; omega
    · simp only [ArithOp.exact]; omega
  refine ⟨hshape, ?_, ?_, ?_⟩
  · intro o ho
    obtain ⟨h1, h2⟩ := hrange o ho
    exact ⟨h1, h2, wrap_eq_self w hw _ h1 h2⟩
  · intro a b hab
    rcases hshape _ hab with ⟨h, _⟩ | ⟨h, _⟩
    · exact absurd h (by simp)
    · exact absurd h (by simp)
  · unfold definition_space_addition_runtime definition_space_addition_exact
    rcases lt_trichotomy rhs 0 with hneg | hzero | hpos
    · have e := wrap_eq_self w hw (numeric_limits_min w - rhs) (by omega) (by omega)
      have hn : ¬ rhs > 0 := by omega
      simp only [hn, decide_False, Bool.false_and, Bool.false_or, e]
    · subst hzero
      simp
    · have e := wrap_eq_self w hw (numeric_limits_max w - rhs) (by omega) (by omega)
      have hn : ¬ rhs < 0 := by omega
      simp only [hn, decide_False, Bool.false_and, Bool.or_false, e]

/-- C19 at 32 bits with `lhs = 0x7FFFFFFF`, `rhs = 1`, the call that ends the orbit of
`eop_examples`: the only operation evaluated is `max - 1`, and the wrapping check agrees with
the exact one. -/
theorem definition_space_addition_no_overflow_witness :
    definition_space_addition_ops 32 0x7FFFFFFF 1 = [ArithOp.sub (numeric_limits_max 32) 1] ∧
      ArithOp.add 0x7FFFFFFF 1 ∉ definition_space_addition_ops 32 0x7FFFFFFF 1 ∧
      definition_space_addition_runtime 32 0x7FFFFFFF 1
        = definition_space_addition_exact 32 0x7FFFFFFF 1 := by
  have h := definition_space_addition_no_overflow 32 (by decide) 0x7FFFFFFF 1 (by decide)
  exact ⟨by decide, h.2.2.1 _ _, h.2.2.2⟩

section PurityTheorems

variable {D : Type} [DecidableEq D]

/-- C20: every argument that `collison_point` and `circular_orbit` pass to `f` (for the slow
pointer, for the fast pointer and for the final `f(y)` of `circular_orbit`) satisfies `p`; and
for a transformation `g` that agrees with `f` on every value satisfying `p`,
`collison_point(x, g, p)` and `circular_orbit(x, g, p)` are those of `f`. -/
theorem transformation_applied_inside_region (x : D) (f : D → D) (p : D → Bool) (fuel : Nat) :
    (∀ a, a ∈ collison_point_calls fuel x f p → p a = true) ∧
    (∀ a, a ∈ circular_orbit_calls fuel x f p → p a = true) ∧
    (∀ g : D → D, (∀ v, p v = true → f v = g v) →
      collison_point fuel x f p = collison_point fuel x g p ∧
        circular_orbit fuel x f p = circular_orbit fuel x g p) := by
  have hinv : p x = true →
      ∃ n, x = f^[n] x ∧ f x = f^[2 * n + 1] x ∧ ∀ j, j ≤ 2 * n → p (f^[j] x) = true := by
    intro h0
    refine ⟨0, rfl, rfl, ?_⟩
    intro j hj
    have : j = 0 := by omega
    subst this; exact h0
  have hcalls : ∀ a, a ∈ collison_point_calls fuel x f p → p a = true := by
    intro a ha
    unfold collison_point_calls at ha
    cases h0 : p x with
    | false => simp [h0] at ha
    | true =>
      simp only [h0, Bool.not_true, Bool.false_eq_true, if_false, List.mem_cons] at ha
      rcases ha with ha | ha
      · rw [ha]; exact h0
      · exact collison_point_loop_calls_in_region f p x fuel x (f x) (hinv h0) a ha
  refine ⟨hcalls, ?_, ?_⟩
  · intro a ha
    unfold circular_orbit_calls at ha
    rw [List.mem_append] at ha
    rcases ha with ha | ha
    · exact hcalls a ha
    · cases hy : collison_point fuel x f p with
      | none => rw [hy] at ha; simp at ha
      | some y =>
        rw [hy] at ha
        cases hpy : p y with
        | false => simp [hpy] at ha
        | true =>
          simp only [hpy, if_true, List.mem_singleton] at ha
          rw [ha]; exact hpy
  · intro g hfg
    have hcp : collison_point fuel x f p = collison_point fuel x g p := by
      unfold collison_point
      cases h0 : p x with
      | false => simp
      | true =>
        simp only [Bool.not_true, Bool.false_eq_true, if_false]
        rw [← hfg x h0]
        exact collison_point_loop_congr f g p x hfg fuel x (f x) (hinv h0)
    refine ⟨hcp, ?_⟩
    unfold circular_orbit
    rw [← hcp]
    cases hy : collison_point fuel x f p with
    | none => rfl
    | some y =>
      simp only [Option.map_some', Option.some.injEq]
      cases hpy : p y with
      | false => simp
      | true => rw [hfg y hpy]

set_option maxRecDepth 100000 in
/-- C20 at the values of `eop_examples`: a transformation that is the 32-bit successor except
at `0x7FFFFFFF`, the one `int` whose successor overflows, gives the same collision point and
the same classification, and every argument passed to the successor satisfies the
predicate. -/
theorem transformation_applied_inside_region_witness :
    collison_point 67 eop_x (fun v => if v = 0x7FFFFFFF then 0 else eop_successor v) defspace
        = some 0x7FFFFFFF ∧
      circular_orbit 67 eop_x (fun v => if v = 0x7FFFFFFF then 0 else eop_successor v) defspace
        = some false ∧
      (∀ a, a ∈ collison_point_calls 67 eop_x eop_successor defspace → defspace a = true) := by
  have hagree : ∀ v, defspace v = true →
      eop_successor v = (fun u : Int => if u = 0x7FFFFFFF then 0 else eop_successor u) v := by
    intro v hv
    by_cases e : v = 0x7FFFFFFF
    · subst e
      exact absurd hv (by decide)
    · simp only [e, if_false]
  have h := transformation_applied_inside_region eop_x eop_successor defspace 67
  have hcp : collison_point 67 eop_x eop_successor defspace = some 0x7FFFFFFF := by decide
  have hco : circular_orbit 67 eop_x eop_successor defspace = some false := by decide
  have hg := h.2.2 _ hagree
  exact ⟨hg.1 ▸ hcp, hg.2 ▸ hco, h.1⟩

end PurityTheorems

end Eop
